import Mathlib

/-!
Verification of the linear-referencing and polyline-geometry core of the
dxf2 repository (rail_power.py, mileage_connect.py, rail_power_draw.py,
extract_closed_polyline_text.py, demolition_polyline_info.py).

Coordinates are modelled as exact real numbers; Python float arithmetic is
idealised as exact real arithmetic.  An ezdxf Vec2 is a pair of reals and
its distance, magnitude, dot product and normalize operations are spelled
out below.  Python functions that raise on some inputs are modelled as
Option-valued functions returning none exactly on the raising inputs.
The polygon routine of demolition_polyline_info.py performs only field
operations, so it is embedded over the rationals and stays executable.
-/

namespace Dxf2

noncomputable section

/-- Geometric tolerance, `TOLERANCE = 1e-6` in every script. -/
def TOL : ℝ := 1 / 1000000

/-- A 2D point / vector (ezdxf `Vec2`). -/
abbrev Pt : Type := ℝ × ℝ

/-- Default point handed to out-of-range list reads.  Python raises an
IndexError instead; every theorem below carries the length bounds under
which no out-of-range read happens. -/
def P0 : Pt := (0, 0)

/-- Vector difference `u - v` (ezdxf `Vec2.__sub__`). -/
def subv (u v : Pt) : Pt := (u.1 - v.1, u.2 - v.2)

/-- Vector sum `u + v`. -/
def addv (u v : Pt) : Pt := (u.1 + v.1, u.2 + v.2)

/-- Scalar multiple `t * v` (ezdxf `Vec2.__mul__`). -/
def smul (t : ℝ) (v : Pt) : Pt := (t * v.1, t * v.2)

/-- Dot product (ezdxf `Vec2.dot`). -/
def dotv (u v : Pt) : ℝ := u.1 * v.1 + u.2 * v.2

/-- Euclidean norm (ezdxf `Vec2.magnitude`). -/
noncomputable def magnitude (v : Pt) : ℝ := Real.sqrt (v.1 ^ 2 + v.2 ^ 2)

/-- Euclidean distance (ezdxf `Vec2.distance`): `a.distance(b)`. -/
noncomputable def Pdist (a b : Pt) : ℝ := Real.sqrt ((b.1 - a.1) ^ 2 + (b.2 - a.2) ^ 2)

/-- Normalisation `v / |v|` (ezdxf `Vec2.normalize`); in every call site of
the sources it is guarded by `magnitude v > TOLERANCE`. -/
noncomputable def normalize (v : Pt) : Pt := (v.1 / magnitude v, v.2 / magnitude v)

/-- The interpolated point `a + (b - a) * t` of the densify loops. -/
def lerp (a b : Pt) (t : ℝ) : Pt := addv a (smul t (subv b a))

/-- `int(dist // max_len)` of the densify loops (floor division of
nonnegative floats followed by `int`). -/
noncomputable def stepsOf (a b : Pt) (L : ℝ) : ℕ := (⌊Pdist a b / L⌋).toNat

theorem Pdist_eq_magnitude (a b : Pt) : Pdist a b = magnitude (subv b a) := rfl

theorem Pdist_nonneg (a b : Pt) : 0 ≤ Pdist a b := Real.sqrt_nonneg _

theorem magnitude_nonneg (v : Pt) : 0 ≤ magnitude v := Real.sqrt_nonneg _

theorem Pdist_self (a : Pt) : Pdist a a = 0 := by
  simp [Pdist]

/-- Evaluation helper: the square root of an exhibited perfect square. -/
theorem sqrt_eval {x s : ℝ} (hs : 0 ≤ s) (h : s ^ 2 = x) : Real.sqrt x = s := by
  rw [← h, Real.sqrt_sq hs]

theorem magnitude_smul (t : ℝ) (v : Pt) : magnitude (smul t v) = |t| * magnitude v := by
  unfold magnitude smul
  rw [show (t * v.1) ^ 2 + (t * v.2) ^ 2 = t ^ 2 * (v.1 ^ 2 + v.2 ^ 2) by ring,
    Real.sqrt_mul (sq_nonneg t), Real.sqrt_sq_eq_abs]

theorem lerp_zero (a b : Pt) : lerp a b 0 = a := by
  unfold lerp addv smul subv; simp

theorem lerp_one (a b : Pt) : lerp a b 1 = b := by
  unfold lerp addv smul subv
  cases a; cases b; simp

theorem Pdist_lerp_lerp (a b : Pt) (s t : ℝ) :
    Pdist (lerp a b s) (lerp a b t) = |t - s| * Pdist a b := by
  unfold Pdist lerp addv smul subv
  rw [show (a.1 + t * (b.1 - a.1) - (a.1 + s * (b.1 - a.1))) ^ 2 +
        (a.2 + t * (b.2 - a.2) - (a.2 + s * (b.2 - a.2))) ^ 2 =
      (t - s) ^ 2 * ((b.1 - a.1) ^ 2 + (b.2 - a.2) ^ 2) by ring,
    Real.sqrt_mul (sq_nonneg _), Real.sqrt_sq_eq_abs]

namespace RailPower

/-- Interior points inserted by `densify` of rail_power.py (also
extract_closed_polyline_text.py and demolition_polyline_info.py) for one
segment: `for k in range(1, steps): dense.append(a + (b - a) * (k / steps))`. -/
def interior (a b : Pt) (L : ℝ) : List Pt :=
  (List.range (stepsOf a b L - 1)).map
    (fun (k : ℕ) => lerp a b (((k : ℝ) + 1) / (stepsOf a b L : ℝ)))

/-- One iteration of the densify loop of rail_power.py: append `a`, then the
interior points when `dist > max_len`. -/
def chunk (a b : Pt) (L : ℝ) : List Pt :=
  a :: (if Pdist a b > L then interior a b L else [])

/-- The densify loop plus the final `dense.append(points[-1])`. -/
def densifyAux (L : ℝ) : List Pt → List Pt
  | [] => []
  | [p] => [p]
  | a :: b :: rest => chunk a b L ++ densifyAux L (b :: rest)

/-- `densify(points, max_len)` of rail_power.py.  On the empty list the
Python code raises (IndexError on `points[-1]`), modelled by `none`. -/
def densify (points : List Pt) (L : ℝ) : Option (List Pt) :=
  match points with
  | [] => none
  | _ :: _ => some (densifyAux L points)

end RailPower

namespace MileageConnect

/-- Interior points inserted by `densify` of mileage_connect.py (also
rail_power_draw.py) for one segment:
`for k in range(1, steps + 1): dense.append(a + (b - a) * (k / (steps + 1)))`. -/
def interior (a b : Pt) (L : ℝ) : List Pt :=
  (List.range (stepsOf a b L)).map
    (fun (k : ℕ) => lerp a b (((k : ℝ) + 1) / ((stepsOf a b L : ℝ) + 1)))

/-- One iteration of the densify loop of mileage_connect.py. -/
def chunk (a b : Pt) (L : ℝ) : List Pt :=
  a :: (if Pdist a b > L then interior a b L else [])

/-- The densify loop plus the final `dense.append(points[-1])`. -/
def densifyAux (L : ℝ) : List Pt → List Pt
  | [] => []
  | [p] => [p]
  | a :: b :: rest => chunk a b L ++ densifyAux L (b :: rest)

/-- `densify(points, max_len)` of mileage_connect.py.  On the empty list the
Python code raises (IndexError on `points[-1]`), modelled by `none`. -/
def densify (points : List Pt) (L : ℝ) : Option (List Pt) :=
  match points with
  | [] => none
  | _ :: _ => some (densifyAux L points)

end MileageConnect

/-- The appended entries of the cumulative-length loop of `calc_cum_len`
(identical in all five scripts), starting from the running value `c`:
`for i in range(len(vecs)-1): cum.append(cum[-1] + vecs[i].distance(vecs[i+1]))`. -/
def segCums (c : ℝ) : List Pt → List ℝ
  | a :: b :: rest => (c + Pdist a b) :: segCums (c + Pdist a b) (b :: rest)
  | _ => []

/-- `calc_cum_len(vecs)`: the cumulative length table `cum = [0.0]`
followed by the appended entries. -/
def calc_cum_len (vecs : List Pt) : List ℝ := 0 :: segCums 0 vecs

theorem segCums_length (c : ℝ) (ps : List Pt) :
    (segCums c ps).length = ps.length - 1 := by
  induction ps generalizing c with
  | nil => rfl
  | cons a t ih =>
    cases t with
    | nil => rfl
    | cons b rest =>
      show (_ :: segCums _ (b :: rest)).length = _
      rw [List.length_cons, ih]
      simp

theorem calc_cum_len_length (vecs : List Pt) (h : 1 ≤ vecs.length) :
    (calc_cum_len vecs).length = vecs.length := by
  rw [calc_cum_len, List.length_cons, segCums_length]
  omega

/-- The defining recurrence of the cumulative table, with an arbitrary
starting value. -/
theorem segCums_getD (c : ℝ) (ps : List Pt) :
    ∀ i, i + 1 < ps.length →
      (c :: segCums c ps).getD (i + 1) 0 =
        (c :: segCums c ps).getD i 0 + Pdist (ps.getD i P0) (ps.getD (i + 1) P0) := by
  induction ps generalizing c with
  | nil => intro i hi; simp at hi
  | cons a t ih =>
    cases t with
    | nil => intro i hi; simp at hi
    | cons b rest =>
      intro i hi
      cases i with
      | zero => simp [segCums]
      | succ j =>
        show ((c :: (c + Pdist a b) :: segCums (c + Pdist a b) (b :: rest))).getD (j + 2) 0 = _
        rw [List.getD_cons_succ, List.getD_cons_succ, List.getD_cons_succ, List.getD_cons_succ]
        exact ih (c + Pdist a b) j (by simpa using Nat.lt_of_succ_lt_succ hi)

theorem segCums_chain (c : ℝ) (ps : List Pt) :
    List.Chain' (· ≤ ·) (c :: segCums c ps) := by
  induction ps generalizing c with
  | nil => simp [segCums]
  | cons a t ih =>
    cases t with
    | nil => simp [segCums]
    | cons b rest =>
      show List.Chain' _ (c :: (c + Pdist a b) :: segCums (c + Pdist a b) (b :: rest))
      exact List.Chain'.cons (by linarith [Pdist_nonneg a b]) (ih (c + Pdist a b))

theorem getLastD_irrel (l : List ℝ) (h : l ≠ []) (d1 d2 : ℝ) :
    l.getLastD d1 = l.getLastD d2 := by
  cases l with
  | nil => exact absurd rfl h
  | cons a t =>
    induction t generalizing a with
    | nil => rfl
    | cons b t' ih => simpa using ih b

theorem chain_le_getLastD (l : List ℝ) (hl : List.Chain' (· ≤ ·) l) (d : ℝ) :
    ∀ x ∈ l, x ≤ l.getLastD d := by
  induction l generalizing d with
  | nil => intro x hx; simp at hx
  | cons a t ih =>
    intro x hx
    rw [List.getLastD_cons]
    rcases List.mem_cons.mp hx with h | h
    · subst h
      cases t with
      | nil => simp
      | cons b t' =>
        have hab : x ≤ b := (List.chain'_cons.mp hl).1
        have := ih (List.Chain'.tail hl) x b (by simp)
        linarith
    · exact ih (List.Chain'.tail hl) a x h

theorem segCums_lower (c : ℝ) (ps : List Pt) :
    ∀ x ∈ c :: segCums c ps, c ≤ x := by
  induction ps generalizing c with
  | nil => intro x hx; simp [segCums] at hx; simp [hx]
  | cons a t ih =>
    cases t with
    | nil => intro x hx; simp [segCums] at hx; simp [hx]
    | cons b rest =>
      intro x hx
      rcases List.mem_cons.mp hx with h | h
      · exact le_of_eq h.symm
      · have := ih (c + Pdist a b) x h
        linarith [Pdist_nonneg a b]

/-- Each item of the zipped segment/cumulative-value list used by the
projector folds lands between the start value and the last table entry. -/
theorem segCums_zip_mem (c : ℝ) (ps : List Pt) :
    ∀ x ∈ (ps.zip ps.tail).zip (c :: segCums c ps),
      c ≤ x.2 ∧ x.2 + Pdist x.1.1 x.1.2 ≤ (c :: segCums c ps).getLastD 0 := by
  induction ps generalizing c with
  | nil => intro x hx; simp at hx
  | cons a t ih =>
    cases t with
    | nil => intro x hx; simp at hx
    | cons b rest =>
      intro x hx
      have hzip : ((a :: b :: rest).zip (a :: b :: rest).tail).zip
          (c :: segCums c (a :: b :: rest)) =
          ((a, b), c) ::
            (((b :: rest).zip (b :: rest).tail).zip
              ((c + Pdist a b) :: segCums (c + Pdist a b) (b :: rest))) := by
        show ((a, b) :: ((b :: rest).zip rest)).zip _ = _
        rfl
      rw [hzip] at hx
      have hlast : (c :: segCums c (a :: b :: rest)).getLastD 0 =
          ((c + Pdist a b) :: segCums (c + Pdist a b) (b :: rest)).getLastD 0 := by
        show ((c + Pdist a b) :: segCums (c + Pdist a b) (b :: rest)).getLastD c = _
        exact getLastD_irrel _ (by simp) c 0
      rcases List.mem_cons.mp hx with h | h
      · subst h
        refine ⟨le_refl _, ?_⟩
        rw [hlast]
        exact chain_le_getLastD _ (segCums_chain _ _) 0 _ (by simp)
      · have := ih (c + Pdist a b) x h
        rw [hlast]
        exact ⟨by linarith [Pdist_nonneg a b, this.1], this.2⟩

/-- The clamped projection of `point` onto the segment from `a` to `b`, as
computed inside the scan loops of `calc_mileage` (rail_power.py) and
`closest_mileage` (extract_closed_polyline_text.py):
`proj = (point - a).dot(ab) / ab.magnitude ** 2`, with `proj_pt = a` when
`proj < 0`, `proj_pt = b` when `proj > 1`, else `a + ab * proj`. -/
def projPoint (a b point : Pt) : Pt :=
  if dotv (subv point a) (subv b a) / magnitude (subv b a) ^ 2 < 0 then a
  else if 1 < dotv (subv point a) (subv b a) / magnitude (subv b a) ^ 2 then b
  else addv a (smul (dotv (subv point a) (subv b a) / magnitude (subv b a) ^ 2) (subv b a))

/-- `dist = point.distance(proj_pt)` of the scan loops. -/
def projDist (a b point : Pt) : ℝ := Pdist point (projPoint a b point)

/-- `cum[i] + (proj_pt - a).magnitude` of the scan loops. -/
def projVal (a b point : Pt) (ci : ℝ) : ℝ := ci + magnitude (subv (projPoint a b point) a)

/-- One iteration of the closest-segment scan shared by `calc_mileage` and
`closest_mileage`: degenerate segments (`ab.magnitude < TOLERANCE`) are
skipped; the best pair (best_len, best_dist) is updated exactly when the
new distance is strictly smaller; `none` is the initial state
(best_len = None, best_dist = inf). -/
def projStep (point : Pt) (st : Option (ℝ × ℝ)) (x : (Pt × Pt) × ℝ) : Option (ℝ × ℝ) :=
  if magnitude (subv x.1.2 x.1.1) < TOL then st
  else
    match st with
    | none => some (projVal x.1.1 x.1.2 point x.2, projDist x.1.1 x.1.2 point)
    | some (bl, bd) =>
      if projDist x.1.1 x.1.2 point < bd then
        some (projVal x.1.1 x.1.2 point x.2, projDist x.1.1 x.1.2 point)
      else some (bl, bd)

/-- The whole scan over all segments paired with their table entries. -/
def projScan (vecs : List Pt) (cum : List ℝ) (point : Pt) : Option (ℝ × ℝ) :=
  ((vecs.zip vecs.tail).zip cum).foldl (projStep point) none

/-- `calc_mileage(vecs, cum, point, offset)` of rail_power.py: `None`, or
`best_len + offset`. -/
def calc_mileage (vecs : List Pt) (cum : List ℝ) (point : Pt) (offset : ℝ) : Option ℝ :=
  (projScan vecs cum point).map (fun s => s.1 + offset)

/-- `closest_mileage(vecs, cum, point, offset)` of
extract_closed_polyline_text.py: `(None, None)`, or
`(best_len + offset, best_dist)`. -/
def closest_mileage (vecs : List Pt) (cum : List ℝ) (point : Pt) (offset : ℝ) :
    Option (ℝ × ℝ) :=
  (projScan vecs cum point).map (fun s => (s.1 + offset, s.2))

theorem magnitude_subv_self (a : Pt) : magnitude (subv a a) = 0 := by
  simp [magnitude, subv]

theorem projDist_nonneg (a b p : Pt) : 0 ≤ projDist a b p := Pdist_nonneg _ _

theorem projPoint_self_start (a b : Pt) : projPoint a b a = a := by
  unfold projPoint
  have h0 : dotv (subv a a) (subv b a) = 0 := by
    simp [dotv, subv]
  rw [h0, zero_div]
  rw [if_neg (lt_irrefl 0), if_neg (by norm_num)]
  simp [addv, smul]

theorem projPoint_self_end (a b : Pt) (h : magnitude (subv b a) ≠ 0) :
    projPoint a b b = b := by
  unfold projPoint
  have hd : dotv (subv b a) (subv b a) = magnitude (subv b a) ^ 2 := by
    unfold dotv magnitude
    rw [Real.sq_sqrt (by positivity)]
    ring
  rw [hd, div_self (pow_ne_zero 2 h)]
  rw [if_neg (by norm_num), if_neg (lt_irrefl 1)]
  cases a with
  | mk a1 a2 =>
    cases b with
    | mk b1 b2 =>
      simp [addv, smul, subv]

theorem subv_addv_smul (a : Pt) (t : ℝ) (v : Pt) :
    subv (addv a (smul t v)) a = smul t v := by
  simp [subv, addv, smul]

theorem projPoint_sub_le (a b p : Pt) :
    magnitude (subv (projPoint a b p) a) ≤ Pdist a b := by
  unfold projPoint
  split_ifs with hc1 hc2
  · rw [magnitude_subv_self]
    exact Pdist_nonneg a b
  · rw [Pdist_eq_magnitude]
  · rw [Pdist_eq_magnitude, subv_addv_smul, magnitude_smul, abs_of_nonneg (not_lt.mp hc1)]
    calc _ ≤ 1 * magnitude (subv b a) :=
          mul_le_mul_of_nonneg_right (not_lt.mp hc2) (magnitude_nonneg _)
      _ = magnitude (subv b a) := one_mul _

theorem projStep_isSome (p : Pt) (st : Option (ℝ × ℝ)) (x : (Pt × Pt) × ℝ)
    (h : st.isSome) : (projStep p st x).isSome := by
  unfold projStep
  split_ifs
  · exact h
  · cases st with
    | none => simp at h
    | some s =>
      cases s
      simp only
      split_ifs <;> rfl

theorem projStep_nondeg_isSome (p : Pt) (st : Option (ℝ × ℝ)) (x : (Pt × Pt) × ℝ)
    (h : ¬ magnitude (subv x.1.2 x.1.1) < TOL) : (projStep p st x).isSome := by
  unfold projStep
  rw [if_neg h]
  cases st with
  | none => rfl
  | some s =>
    cases s
    simp only
    split_ifs <;> rfl

theorem projFold_isSome_pres (p : Pt) (items : List ((Pt × Pt) × ℝ)) :
    ∀ st : Option (ℝ × ℝ), st.isSome → (items.foldl (projStep p) st).isSome := by
  induction items with
  | nil => intro st h; exact h
  | cons x xs ih => intro st h; exact ih _ (projStep_isSome p st x h)

theorem projFold_isSome (p : Pt) :
    ∀ (items : List ((Pt × Pt) × ℝ)) (st : Option (ℝ × ℝ)),
      (∃ x ∈ items, ¬ magnitude (subv x.1.2 x.1.1) < TOL) →
      (items.foldl (projStep p) st).isSome := by
  intro items
  induction items with
  | nil =>
    intro st h
    obtain ⟨x, hx, _⟩ := h
    simp at hx
  | cons y ys ih =>
    intro st h
    obtain ⟨x, hx, hnd⟩ := h
    rcases List.mem_cons.mp hx with rfl | hmem
    · exact projFold_isSome_pres p ys _ (projStep_nondeg_isSome p st x hnd)
    · exact ih _ ⟨x, hmem, hnd⟩

theorem projFold_bounds (p : Pt) (lo hi : ℝ) :
    ∀ (items : List ((Pt × Pt) × ℝ)) (st : Option (ℝ × ℝ)),
      (∀ x ∈ items, lo ≤ x.2 ∧ x.2 + Pdist x.1.1 x.1.2 ≤ hi) →
      (∀ bl bd, st = some (bl, bd) → lo ≤ bl ∧ bl ≤ hi) →
      ∀ bl bd, items.foldl (projStep p) st = some (bl, bd) → lo ≤ bl ∧ bl ≤ hi := by
  intro items
  induction items with
  | nil => intro st _ hst bl bd h; exact hst bl bd h
  | cons x xs ih =>
    intro st hitems hst bl bd h
    refine ih (projStep p st x) (fun y hy => hitems y (List.mem_cons_of_mem _ hy)) ?_ bl bd h
    intro bl' bd' hstep
    have hx := hitems x (List.mem_cons_self _ _)
    have hval : lo ≤ projVal x.1.1 x.1.2 p x.2 ∧ projVal x.1.1 x.1.2 p x.2 ≤ hi := by
      constructor
      · unfold projVal
        have := magnitude_nonneg (subv (projPoint x.1.1 x.1.2 p) x.1.1)
        linarith [hx.1]
      · unfold projVal
        linarith [projPoint_sub_le x.1.1 x.1.2 p, hx.2]
    unfold projStep at hstep
    split_ifs at hstep with hskip
    · exact hst bl' bd' hstep
    · cases st with
      | none =>
        simp only [Option.some.injEq, Prod.mk.injEq] at hstep
        rw [← hstep.1]
        exact hval
      | some s =>
        cases s with
        | mk bl0 bd0 =>
          simp only at hstep
          split_ifs at hstep with hlt
          · simp only [Option.some.injEq, Prod.mk.injEq] at hstep
            rw [← hstep.1]
            exact hval
          · simp only [Option.some.injEq, Prod.mk.injEq] at hstep
            rw [← hstep.1]
            exact hst bl0 bd0 rfl

theorem projStep_pos (p : Pt) (x : (Pt × Pt) × ℝ) (st : Option (ℝ × ℝ))
    (hx : magnitude (subv x.1.2 x.1.1) < TOL ∨ 0 < projDist x.1.1 x.1.2 p)
    (hst : ∀ bl bd, st = some (bl, bd) → 0 < bd) :
    ∀ bl bd, projStep p st x = some (bl, bd) → 0 < bd := by
  intro bl bd h
  unfold projStep at h
  split_ifs at h with hskip
  · exact hst bl bd h
  · have hd : 0 < projDist x.1.1 x.1.2 p := hx.resolve_left hskip
    cases st with
    | none =>
      simp only [Option.some.injEq, Prod.mk.injEq] at h
      rw [← h.2]
      exact hd
    | some s =>
      cases s with
      | mk bl0 bd0 =>
        simp only at h
        split_ifs at h with hlt
        · simp only [Option.some.injEq, Prod.mk.injEq] at h
          rw [← h.2]
          exact hd
        · simp only [Option.some.injEq, Prod.mk.injEq] at h
          rw [← h.2]
          exact hst bl0 bd0 rfl

theorem projFold_pos (p : Pt) :
    ∀ (items : List ((Pt × Pt) × ℝ)) (st : Option (ℝ × ℝ)),
      (∀ x ∈ items, magnitude (subv x.1.2 x.1.1) < TOL ∨ 0 < projDist x.1.1 x.1.2 p) →
      (∀ bl bd, st = some (bl, bd) → 0 < bd) →
      ∀ bl bd, items.foldl (projStep p) st = some (bl, bd) → 0 < bd := by
  intro items
  induction items with
  | nil => intro st _ hst bl bd h; exact hst bl bd h
  | cons x xs ih =>
    intro st hitems hst bl bd h
    exact ih (projStep p st x) (fun y hy => hitems y (List.mem_cons_of_mem _ hy))
      (projStep_pos p x st (hitems x (List.mem_cons_self _ _)) hst) bl bd h

theorem projStep_zero_hit (p a b : Pt) (ci : ℝ) (st : Option (ℝ × ℝ))
    (hnd : ¬ magnitude (subv b a) < TOL) (hd : projDist a b p = 0)
    (hst : ∀ bl bd, st = some (bl, bd) → 0 < bd) :
    projStep p st ((a, b), ci) = some (projVal a b p ci, 0) := by
  unfold projStep
  rw [if_neg hnd]
  cases st with
  | none =>
    simp only
    rw [hd]
  | some s =>
    cases s with
    | mk bl bd =>
      have hlt : projDist a b p < bd := by
        rw [hd]
        exact hst bl bd rfl
      simp only
      rw [if_pos hlt, hd]

theorem projStep_zero_keep (p : Pt) (v : ℝ) (x : (Pt × Pt) × ℝ) :
    projStep p (some (v, 0)) x = some (v, 0) := by
  unfold projStep
  split_ifs with hskip
  · rfl
  · exact if_neg (not_lt.mpr (projDist_nonneg _ _ _))

theorem projFold_zero_keep (p : Pt) (v : ℝ) :
    ∀ items : List ((Pt × Pt) × ℝ),
      items.foldl (projStep p) (some (v, 0)) = some (v, 0) := by
  intro items
  induction items with
  | nil => rfl
  | cons x xs ih => simpa [projStep_zero_keep] using ih

/-- The i-th item of the zipped segment/table list. -/
theorem mem_zip_of_lt (ps : List Pt) (c : ℝ) :
    ∀ i, i + 1 < ps.length →
      ((ps.getD i P0, ps.getD (i + 1) P0), (c :: segCums c ps).getD i 0) ∈
        (ps.zip ps.tail).zip (c :: segCums c ps) := by
  induction ps generalizing c with
  | nil => intro i hi; simp at hi
  | cons a t ih =>
    cases t with
    | nil => intro i hi; simp at hi
    | cons b rest =>
      intro i hi
      have hzip : ((a :: b :: rest).zip (a :: b :: rest).tail).zip
          (c :: segCums c (a :: b :: rest)) =
          ((a, b), c) ::
            (((b :: rest).zip (b :: rest).tail).zip
              ((c + Pdist a b) :: segCums (c + Pdist a b) (b :: rest))) := by
        show ((a, b) :: ((b :: rest).zip rest)).zip _ = _
        rfl
      rw [hzip]
      cases i with
      | zero => simp [segCums]
      | succ j =>
        refine List.mem_cons_of_mem _ ?_
        have := ih (c + Pdist a b) j (by simpa using Nat.lt_of_succ_lt_succ hi)
        simpa [segCums] using this

/-- Projecting the j-th vertex of a polyline whose segments are all
non-degenerate and whose earlier segments stay at positive distance from
that vertex: the scan ends in distance 0 with the j-th table entry. -/
theorem projFold_vertex (j : ℕ) :
    ∀ (ps : List Pt) (c : ℝ) (st : Option (ℝ × ℝ)),
      2 ≤ ps.length → j < ps.length →
      List.Chain' (fun a b => TOL ≤ magnitude (subv b a)) ps →
      (∀ i, i + 1 < j → 0 < projDist (ps.getD i P0) (ps.getD (i + 1) P0) (ps.getD j P0)) →
      (∀ bl bd, st = some (bl, bd) → 0 < bd) →
      ((ps.zip ps.tail).zip (c :: segCums c ps)).foldl (projStep (ps.getD j P0)) st =
        some ((c :: segCums c ps).getD j 0, 0) := by
  induction j with
  | zero =>
    intro ps c st h2 hj hchain hfar hst
    match ps, h2 with
    | a :: b :: rest, _ =>
      have hzip : ((a :: b :: rest).zip (a :: b :: rest).tail).zip
          (c :: segCums c (a :: b :: rest)) =
          ((a, b), c) ::
            (((b :: rest).zip (b :: rest).tail).zip
              ((c + Pdist a b) :: segCums (c + Pdist a b) (b :: rest))) := by
        show ((a, b) :: ((b :: rest).zip rest)).zip _ = _
        rfl
      rw [hzip]
      have hpt : (a :: b :: rest).getD 0 P0 = a := rfl
      rw [hpt]
      have hnd : ¬ magnitude (subv b a) < TOL :=
        not_lt.mpr (List.chain'_cons.mp hchain).1
      have hd0 : projDist a b a = 0 := by
        unfold projDist
        rw [projPoint_self_start, Pdist_self]
      rw [List.foldl_cons, projStep_zero_hit a a b c st hnd hd0 hst]
      have hval : projVal a b a c = c := by
        unfold projVal
        rw [projPoint_self_start, magnitude_subv_self, add_zero]
      rw [hval, projFold_zero_keep]
      rfl
  | succ k ih =>
    intro ps c st h2 hj hchain hfar hst
    match ps, h2 with
    | a :: b :: rest, _ =>
      have hzip : ((a :: b :: rest).zip (a :: b :: rest).tail).zip
          (c :: segCums c (a :: b :: rest)) =
          ((a, b), c) ::
            (((b :: rest).zip (b :: rest).tail).zip
              ((c + Pdist a b) :: segCums (c + Pdist a b) (b :: rest))) := by
        show ((a, b) :: ((b :: rest).zip rest)).zip _ = _
        rfl
      rw [hzip]
      have hpt : (a :: b :: rest).getD (k + 1) P0 = (b :: rest).getD k P0 :=
        List.getD_cons_succ
      have hndab : ¬ magnitude (subv b a) < TOL :=
        not_lt.mpr (List.chain'_cons.mp hchain).1
      rw [hpt, List.foldl_cons]
      have hgoal : ((c :: segCums c (a :: b :: rest))).getD (k + 1) 0 =
          ((c + Pdist a b) :: segCums (c + Pdist a b) (b :: rest)).getD k 0 := by
        simp [segCums]
      rw [hgoal]
      cases k with
      | zero =>
        -- the target segment is the first one: its end vertex is the point
        have hmagne : magnitude (subv b a) ≠ 0 := by
          intro h
          rw [h] at hndab
          exact hndab (by rw [TOL]; norm_num)
        have hd0 : projDist a b ((b :: rest).getD 0 P0) = 0 := by
          show projDist a b b = 0
          unfold projDist
          rw [projPoint_self_end a b hmagne, Pdist_self]
        rw [projStep_zero_hit _ a b c st hndab hd0 hst]
        have hval : projVal a b b c = c + Pdist a b := by
          unfold projVal
          rw [projPoint_self_end a b hmagne, Pdist_eq_magnitude]
        rw [show (b :: rest).getD 0 P0 = b from rfl] at *
        rw [hval, projFold_zero_keep]
        rfl
      | succ m =>
        -- the first segment is strictly before the target vertex
        have hfar0 : 0 < projDist a b ((b :: rest).getD (m + 1) P0) := by
          have := hfar 0 (by omega)
          rw [List.getD_cons_succ] at this
          exact this
        have hst' : ∀ bl bd,
            projStep ((b :: rest).getD (m + 1) P0) st ((a, b), c) = some (bl, bd) → 0 < bd :=
          projStep_pos _ _ st (Or.inr hfar0) hst
        refine Eq.trans (ih (b :: rest) (c + Pdist a b) _ ?_ ?_ hchain.tail ?_ hst') rfl
        · have : m + 1 < (b :: rest).length := by
            have := hj
            simp only [List.length_cons] at this ⊢
            omega
          simp only [List.length_cons] at this ⊢
          omega
        · have := hj
          simp only [List.length_cons] at this ⊢
          omega
        · intro i hi
          have := hfar (i + 1) (by omega)
          rw [List.getD_cons_succ, List.getD_cons_succ, List.getD_cons_succ] at this
          exact this

theorem chain'_of_getD {R : Pt → Pt → Prop} :
    ∀ l : List Pt, (∀ i, i + 1 < l.length → R (l.getD i P0) (l.getD (i + 1) P0)) →
      List.Chain' R l := by
  intro l
  induction l with
  | nil => intro _; simp
  | cons a t ih =>
    cases t with
    | nil => intro _; simp
    | cons b rest =>
      intro h
      refine List.chain'_cons.mpr ⟨h 0 (by simp), ih ?_⟩
      intro i hi
      have := h (i + 1) (by simp only [List.length_cons] at hi ⊢; omega)
      rwa [List.getD_cons_succ, List.getD_cons_succ] at this

/-- Gluing lemma for segment chains: a chain over `xs` ending at `y`
extends by a chain starting at `y`. -/
theorem chain'_append_cons {R : Pt → Pt → Prop} (xs : List Pt) (y : Pt) (ys : List Pt)
    (h1 : List.Chain' R (xs ++ [y])) (h2 : List.Chain' R (y :: ys)) :
    List.Chain' R (xs ++ y :: ys) := by
  rw [List.chain'_append] at h1 ⊢
  refine ⟨h1.1, h2, ?_⟩
  intro x hx z hz
  simp only [List.head?_cons, Option.mem_def, Option.some.injEq] at hz
  have := h1.2.2 x hx y (by simp)
  exact hz ▸ this

namespace MileageConnect

theorem densifyAux_head (L : ℝ) : ∀ ps : List Pt, (densifyAux L ps).head? = ps.head? := by
  intro ps
  match ps with
  | [] => rfl
  | [p] => rfl
  | a :: b :: rest => simp [densifyAux, chunk]

theorem densifyAux_getLast (L : ℝ) :
    ∀ ps : List Pt, (densifyAux L ps).getLast? = ps.getLast? := by
  intro ps
  induction ps with
  | nil => rfl
  | cons a t ih =>
    cases t with
    | nil => rfl
    | cons b rest =>
      show (chunk a b L ++ densifyAux L (b :: rest)).getLast? = _
      have hne : densifyAux L (b :: rest) ≠ [] := by
        intro h
        have := densifyAux_head L (b :: rest)
        rw [h] at this
        simp at this
      rw [List.getLast?_append_of_ne_nil _ hne, ih]
      have : (b :: rest).getLast? = (a :: b :: rest).getLast? := by
        simp [List.getLast?_cons_cons]
      rw [this]

/-- Every consecutive gap produced for one segment is at most `L`:
the per-segment chunk together with the segment end forms a chain of
steps of length at most `L`. -/
theorem chunk_chain {L : ℝ} (hL : 0 < L) (a b : Pt) :
    List.Chain' (fun p q => Pdist p q ≤ L) (chunk a b L ++ [b]) := by
  by_cases hd : Pdist a b > L
  · set s : ℕ := stepsOf a b L with hs
    have hdL1 : 1 < Pdist a b / L := (one_lt_div hL).mpr hd
    have hfl1 : (1 : ℤ) ≤ ⌊Pdist a b / L⌋ := by
      rw [Int.le_floor]
      exact_mod_cast le_of_lt hdL1
    have hcast : ((s : ℝ)) = (⌊Pdist a b / L⌋ : ℝ) := by
      rw [hs, stepsOf]
      exact_mod_cast congrArg (fun z : ℤ => (z : ℝ))
        (Int.toNat_of_nonneg (le_trans (by norm_num) hfl1))
    have hslt : Pdist a b / L < (s : ℝ) + 1 := by
      rw [hcast]
      exact Int.lt_floor_add_one _
    have hs1pos : (0 : ℝ) < (s : ℝ) + 1 := by positivity
    have hgap : Pdist a b / ((s : ℝ) + 1) ≤ L := by
      rw [div_le_iff₀ hs1pos]
      calc Pdist a b = Pdist a b / L * L := by field_simp
        _ ≤ ((s : ℝ) + 1) * L := by
            exact mul_le_mul_of_nonneg_right (le_of_lt hslt) (le_of_lt hL)
        _ = L * ((s : ℝ) + 1) := by ring
    have hmap : chunk a b L ++ [b] =
        (List.range (s + 2)).map (fun (k : ℕ) => lerp a b ((k : ℝ) / ((s : ℝ) + 1))) := by
      unfold chunk
      rw [if_pos hd]
      rw [show s + 2 = (s + 1) + 1 from rfl, List.range_succ, List.map_append,
        List.range_succ_eq_map, List.map_cons, List.map_map]
      have h0 : lerp a b ((0 : ℕ) / ((s : ℝ) + 1)) = a := by
        simp [lerp_zero]
      have hb : lerp a b (((s + 1 : ℕ) : ℝ) / ((s : ℝ) + 1)) = b := by
        rw [show (((s + 1 : ℕ) : ℝ) / ((s : ℝ) + 1)) = 1 by
          push_cast
          field_simp]
        exact lerp_one a b
      rw [h0]
      simp only [List.map_cons, List.map_nil]
      rw [hb]
      have hint : interior a b L =
          List.map ((fun (k : ℕ) => lerp a b ((k : ℝ) / ((s : ℝ) + 1))) ∘ Nat.succ)
            (List.range s) := by
        unfold interior
        rw [← hs]
        congr 1
        funext k
        simp only [Function.comp_apply]
        push_cast
        ring_nf
      rw [hint]
    rw [hmap]
    rw [List.chain'_map]
    rw [show s + 2 = Nat.succ (s + 1) from rfl, List.chain'_range_succ]
    intro m hm
    rw [Pdist_lerp_lerp]
    have : |((m + 1 : ℕ) : ℝ) / ((s : ℝ) + 1) - ((m : ℕ) : ℝ) / ((s : ℝ) + 1)| =
        1 / ((s : ℝ) + 1) := by
      push_cast
      rw [div_sub_div_same]
      rw [show (m : ℝ) + 1 - m = 1 by ring]
      rw [abs_of_pos (by positivity)]
    rw [this, one_div, inv_mul_eq_div]
    exact hgap
  · unfold chunk
    rw [if_neg hd]
    simp only [List.cons_append, List.nil_append]
    exact List.chain'_pair.mpr (le_of_not_lt hd)

theorem densifyAux_chain {L : ℝ} (hL : 0 < L) :
    ∀ ps : List Pt, List.Chain' (fun p q => Pdist p q ≤ L) (densifyAux L ps) := by
  intro ps
  induction ps with
  | nil => simp [densifyAux]
  | cons a t ih =>
    cases t with
    | nil => simp [densifyAux]
    | cons b rest =>
      show List.Chain' _ (chunk a b L ++ densifyAux L (b :: rest))
      have hhead : (densifyAux L (b :: rest)).head? = some b := densifyAux_head L _
      obtain ⟨t', ht'⟩ : ∃ t', densifyAux L (b :: rest) = b :: t' := by
        cases h : densifyAux L (b :: rest) with
        | nil => rw [h] at hhead; simp at hhead
        | cons x xs =>
          rw [h] at hhead
          simp only [List.head?_cons, Option.some.injEq] at hhead
          exact ⟨xs, by rw [hhead]⟩
      rw [ht']
      exact chain'_append_cons _ _ _ (chunk_chain hL a b) (ht' ▸ ih)

end MileageConnect

/-- Python `math.atan2(y, x)`: the angle of the vector (x, y), in
(-pi, pi]. -/
def atan2 (y x : ℝ) : ℝ :=
  if 0 < x then Real.arctan (y / x)
  else if x < 0 then
    (if 0 ≤ y then Real.arctan (y / x) + Real.pi else Real.arctan (y / x) - Real.pi)
  else if 0 < y then Real.pi / 2 else if y < 0 then -(Real.pi / 2) else 0

/-- Python `int(...)` on a float: truncation toward zero. -/
def pyTrunc (x : ℝ) : ℤ := if 0 ≤ x then ⌊x⌋ else ⌈x⌉

/-- Python `round(...)` on a float: nearest integer, ties to even. -/
def pyRound (x : ℝ) : ℤ :=
  if x - ⌊x⌋ < 1 / 2 then ⌊x⌋
  else if 1 / 2 < x - ⌊x⌋ then ⌊x⌋ + 1
  else if Even ⌊x⌋ then ⌊x⌋ else ⌊x⌋ + 1

/-- The degree-and-minute conversion at the end of `angle_right` of
rail_power.py: `deg = int(ang); mins = int(round((ang - deg) * 60));
if mins == 60: deg += 1; mins = 0`.  The returned pair is the (deg, mins)
content of the emitted string. -/
def toDegMin (ang : ℝ) : ℤ × ℤ :=
  if pyRound ((ang - (pyTrunc ang : ℝ)) * 60) = 60 then (pyTrunc ang + 1, 0)
  else (pyTrunc ang, pyRound ((ang - (pyTrunc ang : ℝ)) * 60))

/-- The normalised angle computed by `angle_right` of rail_power.py before
conversion: `theta = math.degrees(-math.atan2(det, dot))` and
`ang = abs(theta) if theta >= 0 else 180 - abs(theta)`. -/
def angVal (t_rail t_pwr : Pt) : ℝ :=
  if 0 ≤ -atan2 (t_rail.1 * t_pwr.2 - t_rail.2 * t_pwr.1)
      (t_rail.1 * t_pwr.1 + t_rail.2 * t_pwr.2) * (180 / Real.pi) then
    |(-atan2 (t_rail.1 * t_pwr.2 - t_rail.2 * t_pwr.1)
      (t_rail.1 * t_pwr.1 + t_rail.2 * t_pwr.2) * (180 / Real.pi))|
  else
    180 - |(-atan2 (t_rail.1 * t_pwr.2 - t_rail.2 * t_pwr.1)
      (t_rail.1 * t_pwr.1 + t_rail.2 * t_pwr.2) * (180 / Real.pi))|

/-- `angle_right(t_rail, t_pwr)` of rail_power.py, as the (degrees,
minutes) pair encoded in the returned string. -/
def angle_right (t_rail t_pwr : Pt) : ℤ × ℤ := toDegMin (angVal t_rail t_pwr)

/-- `t.normalize() if t.magnitude > TOLERANCE else Vec2(1, 0)`, the tangent
post-processing repeated in every branch of `get_point_and_tangent`
(mileage_connect.py and rail_power_draw.py). -/
def tangentOf (t : Pt) : Pt := if TOL < magnitude t then normalize t else (1, 0)

/-- The bracket-scanning loop of `get_point_and_tangent`:
`for i in range(len(cum) - 1): if cum[i] <= target_len <= cum[i + 1]: ...`,
over the segments zipped with their bracketing table values; `fb` is
`vecs[-1]`, returned by the fall-through line after the loop (unreachable
for a genuine table). -/
def locateLoop (fb : Pt) (target : ℝ) : List ((Pt × Pt) × (ℝ × ℝ)) → Pt × Pt
  | [] => (fb, (1, 0))
  | x :: rest =>
    if x.2.1 ≤ target ∧ target ≤ x.2.2 then
      if x.2.2 - x.2.1 < TOL then
        (x.1.1, tangentOf (subv x.1.2 x.1.1))
      else
        (addv x.1.1 (smul ((target - x.2.1) / (x.2.2 - x.2.1)) (subv x.1.2 x.1.1)),
          tangentOf (subv x.1.2 x.1.1))
    else locateLoop fb target rest

/-- `get_point_and_tangent(vecs, cum, target_len)` of mileage_connect.py
and rail_power_draw.py.  Python raises an IndexError on an empty `vecs`;
every use below carries the length bounds keeping all reads in range. -/
def get_point_and_tangent (vecs : List Pt) (cum : List ℝ) (target : ℝ) : Pt × Pt :=
  if target ≤ 0 then
    (vecs.getD 0 P0,
      tangentOf (if 2 ≤ vecs.length then subv (vecs.getD 1 P0) (vecs.getD 0 P0) else (1, 0)))
  else if cum.getLastD 0 ≤ target then
    (vecs.getLastD P0,
      tangentOf (if 2 ≤ vecs.length then
        subv (vecs.getLastD P0) (vecs.getD (vecs.length - 2) P0) else (1, 0)))
  else
    locateLoop (vecs.getLastD P0) target ((vecs.zip vecs.tail).zip (cum.zip cum.tail))

/-- One entry of the cached `rail_data`: (dense points, cumulative table,
mileage offset). -/
abbrev Curve : Type := List Pt × List ℝ × ℝ

/-- The per-mileage placement loop of `main()` in mileage_connect.py (and
rail_power_draw.py): scan the curves in order; skip a curve when
`local_len < -TOLERANCE or local_len > total_len + TOLERANCE`; on the
first match return the located point (the start of the drawn polyline)
and stop; `none` when no curve matches (the printed no-coverage warning). -/
def route_by_mileage (M : ℝ) : List Curve → Option Pt
  | [] => none
  | c :: rest =>
    if M - c.2.2 < -TOL ∨ c.2.1.getLastD 0 + TOL < M - c.2.2 then route_by_mileage M rest
    else some (get_point_and_tangent c.1 c.2.1 (M - c.2.2)).1

/-- The outer batch loop `for M in mileages:` of `main()`: every mileage is
processed independently, so a no-coverage value leaves the other results
untouched. -/
def processMileages (curves : List Curve) (ms : List ℝ) : List (Option Pt) :=
  ms.map (fun M => route_by_mileage M curves)

end

/-- Rational 2D point for the polygon metrics of
demolition_polyline_info.py, which performs field operations only and is
therefore embedded executably over the exact rationals. -/
abbrev PtQ : Type := ℚ × ℚ

/-- The tolerance `1e-6` as a rational. -/
def TOLQ : ℚ := 1 / 1000000

/-- `if pts[0] != pts[-1]: pts = pts + [pts[0]]` of polygon_area_centroid,
for the nonempty input `p :: ps`. -/
def closePoly (p : PtQ) (ps : List PtQ) : List PtQ :=
  if (p :: ps).getLastD p ≠ p then (p :: ps) ++ [p] else p :: ps

/-- One iteration of the shoelace loop of polygon_area_centroid: the state
is (area2, cx, cy); `cross = x0 * y1 - x1 * y0`. -/
def shoelaceStep (st : ℚ × ℚ × ℚ) (pr : PtQ × PtQ) : ℚ × ℚ × ℚ :=
  (st.1 + (pr.1.1 * pr.2.2 - pr.2.1 * pr.1.2),
    st.2.1 + (pr.1.1 + pr.2.1) * (pr.1.1 * pr.2.2 - pr.2.1 * pr.1.2),
    st.2.2 + (pr.1.2 + pr.2.2) * (pr.1.1 * pr.2.2 - pr.2.1 * pr.1.2))

/-- The shoelace sums (area2, cx, cy) over all consecutive pairs of the
closed vertex list. -/
def shoelace (pts : List PtQ) : ℚ × ℚ × ℚ :=
  (pts.zip pts.tail).foldl shoelaceStep (0, 0, 0)

/-- Arithmetic mean of a list of points (componentwise). -/
def meanQ (l : List PtQ) : PtQ :=
  ((l.map Prod.fst).sum / l.length, (l.map Prod.snd).sum / l.length)

/-- `polygon_area_centroid(pts)` of demolition_polyline_info.py.  `none`
models the Python runtime errors: IndexError on the empty input and
ZeroDivisionError on a closed one-point input (`len(pts) - 1 == 0` in the
degenerate branch). -/
def polygon_area_centroid : List PtQ → Option (ℚ × PtQ)
  | [] => none
  | p :: ps =>
    if |(shoelace (closePoly p ps)).1| < TOLQ then
      if (closePoly p ps).length - 1 = 0 then none
      else
        some (0,
          ((((closePoly p ps).dropLast.map Prod.fst).sum / (((closePoly p ps).length - 1 : ℕ) : ℚ)),
            (((closePoly p ps).dropLast.map Prod.snd).sum / (((closePoly p ps).length - 1 : ℕ) : ℚ))))
    else
      some (|(shoelace (closePoly p ps)).1| / 2,
        ((shoelace (closePoly p ps)).2.1 / (3 * (shoelace (closePoly p ps)).1),
          (shoelace (closePoly p ps)).2.2 / (3 * (shoelace (closePoly p ps)).1)))

/-- C1: claimed that for every polyline with at least 2 vertices and every
max_len L > 0, every segment of densify(P, L) is at most L plus tolerance;
this fails for the rail_power.py variant, which inserts `steps - 1` interior
points: on the segment (0,0)-(9,0) with L = 5 it inserts nothing, leaving a
segment of length 9 > 5 + 1e-6. -/
theorem claim_C1_counterexample :
    RailPower.densify [((0 : ℝ), (0 : ℝ)), ((9 : ℝ), (0 : ℝ))] 5 =
      some [((0 : ℝ), (0 : ℝ)), ((9 : ℝ), (0 : ℝ))] ∧
    ¬ List.Chain' (fun p q => Pdist p q ≤ 5 + TOL)
      [((0 : ℝ), (0 : ℝ)), ((9 : ℝ), (0 : ℝ))] := by
  have hd : Pdist ((0 : ℝ), (0 : ℝ)) ((9 : ℝ), (0 : ℝ)) = 9 := by
    unfold Pdist
    exact sqrt_eval (by norm_num) (by norm_num)
  constructor
  · show some (RailPower.densifyAux 5 _) = _
    unfold RailPower.densifyAux RailPower.chunk
    rw [if_pos (by rw [hd]; norm_num)]
    have hsteps : stepsOf ((0 : ℝ), (0 : ℝ)) ((9 : ℝ), (0 : ℝ)) 5 = 1 := by
      unfold stepsOf
      rw [hd]
      rw [show ⌊(9 : ℝ) / 5⌋ = 1 from Int.floor_eq_iff.mpr (by norm_num)]
      rfl
    unfold RailPower.interior
    rw [hsteps]
    rfl
  · intro h
    have := (List.chain'_pair.mp h)
    rw [hd] at this
    rw [TOL] at this
    norm_num at this

/-- C1 (amended): the bound holds for the densify variant of
mileage_connect.py and rail_power_draw.py, which inserts `steps` interior
points at spacing dist/(steps+1): every segment of the output has length at
most L (hence at most L plus the tolerance), and the first and last
vertices of the output equal those of the input.  The rail_power.py variant
(see the counterexample) only preserves the endpoints. -/
theorem claim_C1 (P : List Pt) (L : ℝ) (hP : 2 ≤ P.length) (hL : 0 < L) :
    MileageConnect.densify P L = some (MileageConnect.densifyAux L P) ∧
    List.Chain' (fun p q => Pdist p q ≤ L + TOL) (MileageConnect.densifyAux L P) ∧
    (MileageConnect.densifyAux L P).head? = P.head? ∧
    (MileageConnect.densifyAux L P).getLast? = P.getLast? := by
  refine ⟨?_, ?_, MileageConnect.densifyAux_head L P, MileageConnect.densifyAux_getLast L P⟩
  · cases P with
    | nil => simp at hP
    | cons a t => rfl
  · have h := MileageConnect.densifyAux_chain hL P
    refine h.imp ?_
    intro p q hpq
    have : (0 : ℝ) ≤ TOL := by rw [TOL]; norm_num
    linarith

/-- Witness for C1 at the polyline [(0,0),(9,0)] with L = 5. -/
theorem claim_C1_witness :
    2 ≤ ([((0 : ℝ), (0 : ℝ)), ((9 : ℝ), (0 : ℝ))] : List Pt).length ∧ (0 : ℝ) < 5 ∧
    (MileageConnect.densify [((0 : ℝ), (0 : ℝ)), ((9 : ℝ), (0 : ℝ))] 5 =
      some (MileageConnect.densifyAux 5 [((0 : ℝ), (0 : ℝ)), ((9 : ℝ), (0 : ℝ))]) ∧
    List.Chain' (fun p q => Pdist p q ≤ 5 + TOL)
      (MileageConnect.densifyAux 5 [((0 : ℝ), (0 : ℝ)), ((9 : ℝ), (0 : ℝ))]) ∧
    (MileageConnect.densifyAux 5 [((0 : ℝ), (0 : ℝ)), ((9 : ℝ), (0 : ℝ))]).head? =
      ([((0 : ℝ), (0 : ℝ)), ((9 : ℝ), (0 : ℝ))] : List Pt).head? ∧
    (MileageConnect.densifyAux 5 [((0 : ℝ), (0 : ℝ)), ((9 : ℝ), (0 : ℝ))]).getLast? =
      ([((0 : ℝ), (0 : ℝ)), ((9 : ℝ), (0 : ℝ))] : List Pt).getLast?) :=
  ⟨by norm_num, by norm_num, claim_C1 _ 5 (by norm_num) (by norm_num)⟩

/-- C2 (amended): projecting the j-th vertex of a polyline onto the
polyline yields perpendicular distance 0 and mileage equal to the j-th
cumulative-table entry plus the offset, provided every segment is
non-degenerate and the vertex lies at positive clamped distance from every
segment that ends before it (in particular, whenever the polyline does not
revisit that vertex).  Without the latter hypothesis the scan can stop at
an earlier self-intersecting segment (see the counterexample). -/
theorem claim_C2 (vecs : List Pt) (j : ℕ) (offset : ℝ)
    (h2 : 2 ≤ vecs.length) (hj : j < vecs.length)
    (hnd : ∀ i, i + 1 < vecs.length →
      TOL ≤ magnitude (subv (vecs.getD (i + 1) P0) (vecs.getD i P0)))
    (hfar : ∀ i, i + 1 < j →
      0 < projDist (vecs.getD i P0) (vecs.getD (i + 1) P0) (vecs.getD j P0)) :
    closest_mileage vecs (calc_cum_len vecs) (vecs.getD j P0) offset =
      some ((calc_cum_len vecs).getD j 0 + offset, 0) := by
  have hchain : List.Chain' (fun a b => TOL ≤ magnitude (subv b a)) vecs :=
    chain'_of_getD vecs hnd
  have hfold := projFold_vertex j vecs 0 none h2 hj hchain hfar
    (by intro bl bd h; simp at h)
  unfold closest_mileage projScan
  rw [show calc_cum_len vecs = 0 :: segCums 0 vecs from rfl, hfold]
  rfl

/-- C2: as literally stated the claim is false: on the self-intersecting
polyline [(0,0),(1,0),(0,0),(0,1)], projecting its vertex number 2 (which
is (0,0), cumulative length 2) returns mileage 0, the arc length of the
first pass through that point, not 2. -/
theorem claim_C2_counterexample :
    closest_mileage [((0 : ℝ), (0 : ℝ)), ((1 : ℝ), (0 : ℝ)), ((0 : ℝ), (0 : ℝ)),
        ((0 : ℝ), (1 : ℝ))]
      (calc_cum_len [((0 : ℝ), (0 : ℝ)), ((1 : ℝ), (0 : ℝ)), ((0 : ℝ), (0 : ℝ)),
        ((0 : ℝ), (1 : ℝ))])
      ((0 : ℝ), (0 : ℝ)) 0 = some (0, 0) ∧
    (calc_cum_len [((0 : ℝ), (0 : ℝ)), ((1 : ℝ), (0 : ℝ)), ((0 : ℝ), (0 : ℝ)),
        ((0 : ℝ), (1 : ℝ))]).getD 2 0 = 2 ∧
    (0 : ℝ) ≠ 2 := by
  have hd1 : Pdist ((0 : ℝ), (0 : ℝ)) ((1 : ℝ), (0 : ℝ)) = 1 := by
    unfold Pdist
    exact sqrt_eval (by norm_num) (by norm_num)
  have hd2 : Pdist ((1 : ℝ), (0 : ℝ)) ((0 : ℝ), (0 : ℝ)) = 1 := by
    unfold Pdist
    exact sqrt_eval (by norm_num) (by norm_num)
  have hd3 : Pdist ((0 : ℝ), (0 : ℝ)) ((0 : ℝ), (1 : ℝ)) = 1 := by
    unfold Pdist
    exact sqrt_eval (by norm_num) (by norm_num)
  have hm1 : magnitude (subv ((1 : ℝ), (0 : ℝ)) ((0 : ℝ), (0 : ℝ))) = 1 := by
    unfold magnitude subv
    exact sqrt_eval (by norm_num) (by norm_num)
  have hm2 : magnitude (subv ((0 : ℝ), (0 : ℝ)) ((1 : ℝ), (0 : ℝ))) = 1 := by
    unfold magnitude subv
    exact sqrt_eval (by norm_num) (by norm_num)
  have hm3 : magnitude (subv ((0 : ℝ), (1 : ℝ)) ((0 : ℝ), (0 : ℝ))) = 1 := by
    unfold magnitude subv
    exact sqrt_eval (by norm_num) (by norm_num)
  have hTOL : TOL ≤ (1 : ℝ) := by rw [TOL]; norm_num
  have hchain : List.Chain' (fun a b => TOL ≤ magnitude (subv b a))
      [((0 : ℝ), (0 : ℝ)), ((1 : ℝ), (0 : ℝ)), ((0 : ℝ), (0 : ℝ)), ((0 : ℝ), (1 : ℝ))] := by
    refine List.Chain'.cons ?_ (List.Chain'.cons ?_ (List.Chain'.cons ?_ ?_))
    · rw [hm1]; exact hTOL
    · rw [hm2]; exact hTOL
    · rw [hm3]; exact hTOL
    · simp
  have hfold := projFold_vertex 0
    [((0 : ℝ), (0 : ℝ)), ((1 : ℝ), (0 : ℝ)), ((0 : ℝ), (0 : ℝ)), ((0 : ℝ), (1 : ℝ))]
    0 none (by norm_num) (by norm_num) hchain
    (by intro i hi; omega) (by intro bl bd h; simp at h)
  refine ⟨?_, ?_, by norm_num⟩
  · unfold closest_mileage projScan
    rw [show calc_cum_len [((0 : ℝ), (0 : ℝ)), ((1 : ℝ), (0 : ℝ)), ((0 : ℝ), (0 : ℝ)),
        ((0 : ℝ), (1 : ℝ))] = 0 :: segCums 0 [((0 : ℝ), (0 : ℝ)), ((1 : ℝ), (0 : ℝ)),
        ((0 : ℝ), (0 : ℝ)), ((0 : ℝ), (1 : ℝ))] from rfl]
    rw [show ([((0 : ℝ), (0 : ℝ)), ((1 : ℝ), (0 : ℝ)), ((0 : ℝ), (0 : ℝ)),
        ((0 : ℝ), (1 : ℝ))] : List Pt).getD 0 P0 = ((0 : ℝ), (0 : ℝ)) from rfl] at hfold
    rw [hfold]
    simp
  · simp only [calc_cum_len, segCums, hd1, hd2, List.getD_cons_succ, List.getD_cons_zero]
    norm_num

/-- Witness for C2 at the polyline [(0,0),(1,0),(1,1)], vertex 2, offset 7. -/
theorem claim_C2_witness :
    2 ≤ ([((0 : ℝ), (0 : ℝ)), ((1 : ℝ), (0 : ℝ)), ((1 : ℝ), (1 : ℝ))] : List Pt).length ∧
    2 < ([((0 : ℝ), (0 : ℝ)), ((1 : ℝ), (0 : ℝ)), ((1 : ℝ), (1 : ℝ))] : List Pt).length ∧
    closest_mileage [((0 : ℝ), (0 : ℝ)), ((1 : ℝ), (0 : ℝ)), ((1 : ℝ), (1 : ℝ))]
      (calc_cum_len [((0 : ℝ), (0 : ℝ)), ((1 : ℝ), (0 : ℝ)), ((1 : ℝ), (1 : ℝ))])
      (([((0 : ℝ), (0 : ℝ)), ((1 : ℝ), (0 : ℝ)), ((1 : ℝ), (1 : ℝ))] : List Pt).getD 2 P0) 7 =
      some ((calc_cum_len [((0 : ℝ), (0 : ℝ)), ((1 : ℝ), (0 : ℝ)),
        ((1 : ℝ), (1 : ℝ))]).getD 2 0 + 7, 0) := by
  refine ⟨by norm_num, by norm_num, claim_C2 _ 2 7 (by norm_num) (by norm_num) ?_ ?_⟩
  · intro i hi
    simp only [List.length_cons, List.length_nil] at hi
    have hcases : i = 0 ∨ i = 1 := by omega
    rcases hcases with rfl | rfl
    · rw [show (([((0 : ℝ), (0 : ℝ)), ((1 : ℝ), (0 : ℝ)), ((1 : ℝ), (1 : ℝ))] :
          List Pt).getD 1 P0) = ((1 : ℝ), (0 : ℝ)) from rfl,
        show (([((0 : ℝ), (0 : ℝ)), ((1 : ℝ), (0 : ℝ)), ((1 : ℝ), (1 : ℝ))] :
          List Pt).getD 0 P0) = ((0 : ℝ), (0 : ℝ)) from rfl]
      rw [show magnitude (subv ((1 : ℝ), (0 : ℝ)) ((0 : ℝ), (0 : ℝ))) = 1 from by
        unfold magnitude subv; exact sqrt_eval (by norm_num) (by norm_num)]
      rw [TOL]; norm_num
    · rw [show (([((0 : ℝ), (0 : ℝ)), ((1 : ℝ), (0 : ℝ)), ((1 : ℝ), (1 : ℝ))] :
          List Pt).getD 2 P0) = ((1 : ℝ), (1 : ℝ)) from rfl,
        show (([((0 : ℝ), (0 : ℝ)), ((1 : ℝ), (0 : ℝ)), ((1 : ℝ), (1 : ℝ))] :
          List Pt).getD 1 P0) = ((1 : ℝ), (0 : ℝ)) from rfl]
      rw [show magnitude (subv ((1 : ℝ), (1 : ℝ)) ((1 : ℝ), (0 : ℝ))) = 1 from by
        unfold magnitude subv; exact sqrt_eval (by norm_num) (by norm_num)]
      rw [TOL]; norm_num
  · intro i hi
    have hi0 : i = 0 := by omega
    subst hi0
    rw [show (([((0 : ℝ), (0 : ℝ)), ((1 : ℝ), (0 : ℝ)), ((1 : ℝ), (1 : ℝ))] :
        List Pt).getD 0 P0) = ((0 : ℝ), (0 : ℝ)) from rfl,
      show (([((0 : ℝ), (0 : ℝ)), ((1 : ℝ), (0 : ℝ)), ((1 : ℝ), (1 : ℝ))] :
        List Pt).getD 1 P0) = ((1 : ℝ), (0 : ℝ)) from rfl,
      show (([((0 : ℝ), (0 : ℝ)), ((1 : ℝ), (0 : ℝ)), ((1 : ℝ), (1 : ℝ))] :
        List Pt).getD 2 P0) = ((1 : ℝ), (1 : ℝ)) from rfl]
    have hm : magnitude (subv ((1 : ℝ), (0 : ℝ)) ((0 : ℝ), (0 : ℝ))) = 1 := by
      unfold magnitude subv
      exact sqrt_eval (by norm_num) (by norm_num)
    have hproj : dotv (subv ((1 : ℝ), (1 : ℝ)) ((0 : ℝ), (0 : ℝ)))
        (subv ((1 : ℝ), (0 : ℝ)) ((0 : ℝ), (0 : ℝ))) /
          magnitude (subv ((1 : ℝ), (0 : ℝ)) ((0 : ℝ), (0 : ℝ))) ^ 2 = 1 := by
      rw [hm]
      unfold dotv subv
      norm_num
    unfold projDist projPoint
    rw [hproj, if_neg (by norm_num), if_neg (by norm_num)]
    rw [show addv ((0 : ℝ), (0 : ℝ))
        (smul 1 (subv ((1 : ℝ), (0 : ℝ)) ((0 : ℝ), (0 : ℝ)))) = ((1 : ℝ), (0 : ℝ)) from by
      unfold addv smul subv; norm_num]
    rw [show Pdist ((1 : ℝ), (1 : ℝ)) ((1 : ℝ), (0 : ℝ)) = 1 from by
      unfold Pdist; exact sqrt_eval (by norm_num) (by norm_num)]
    norm_num

/-- C10: the mileage reported by calc_mileage on a polyline with at least
one non-degenerate segment, with its own cumulative table, always lies
between offset and offset plus the last table entry. -/
theorem claim_C10 (vecs : List Pt) (point : Pt) (offset : ℝ)
    (h : ∃ i, i + 1 < vecs.length ∧
      TOL ≤ magnitude (subv (vecs.getD (i + 1) P0) (vecs.getD i P0))) :
    ∃ m, calc_mileage vecs (calc_cum_len vecs) point offset = some m ∧
      offset ≤ m ∧ m ≤ offset + (calc_cum_len vecs).getLastD 0 := by
  obtain ⟨i, hi, hmag⟩ := h
  have hmem := mem_zip_of_lt vecs 0 i hi
  have hsome : (((vecs.zip vecs.tail).zip (0 :: segCums 0 vecs)).foldl
      (projStep point) none).isSome :=
    projFold_isSome point _ none ⟨_, hmem, not_lt.mpr hmag⟩
  obtain ⟨⟨bl, bd⟩, hfold⟩ := Option.isSome_iff_exists.mp hsome
  have hbounds := projFold_bounds point 0 ((0 :: segCums 0 vecs).getLastD 0) _ none
    (segCums_zip_mem 0 vecs) (by intro bl bd h; simp at h) bl bd hfold
  refine ⟨bl + offset, ?_, by linarith [hbounds.1], ?_⟩
  · unfold calc_mileage projScan
    rw [show calc_cum_len vecs = 0 :: segCums 0 vecs from rfl, hfold]
    rfl
  · rw [show calc_cum_len vecs = 0 :: segCums 0 vecs from rfl]
    linarith [hbounds.2]

/-- Witness for C10 at the polyline [(0,0),(3,0)], query point (10,4),
offset 100. -/
theorem claim_C10_witness :
    (∃ i, i + 1 < ([((0 : ℝ), (0 : ℝ)), ((3 : ℝ), (0 : ℝ))] : List Pt).length ∧
      TOL ≤ magnitude (subv (([((0 : ℝ), (0 : ℝ)), ((3 : ℝ), (0 : ℝ))] :
        List Pt).getD (i + 1) P0)
        (([((0 : ℝ), (0 : ℝ)), ((3 : ℝ), (0 : ℝ))] : List Pt).getD i P0))) ∧
    ∃ m, calc_mileage [((0 : ℝ), (0 : ℝ)), ((3 : ℝ), (0 : ℝ))]
        (calc_cum_len [((0 : ℝ), (0 : ℝ)), ((3 : ℝ), (0 : ℝ))]) ((10 : ℝ), (4 : ℝ)) 100 =
        some m ∧
      100 ≤ m ∧
      m ≤ 100 + (calc_cum_len [((0 : ℝ), (0 : ℝ)), ((3 : ℝ), (0 : ℝ))]).getLastD 0 := by
  have hex : ∃ i, i + 1 < ([((0 : ℝ), (0 : ℝ)), ((3 : ℝ), (0 : ℝ))] : List Pt).length ∧
      TOL ≤ magnitude (subv (([((0 : ℝ), (0 : ℝ)), ((3 : ℝ), (0 : ℝ))] :
        List Pt).getD (i + 1) P0)
        (([((0 : ℝ), (0 : ℝ)), ((3 : ℝ), (0 : ℝ))] : List Pt).getD i P0)) := by
    refine ⟨0, by norm_num, ?_⟩
    rw [show (([((0 : ℝ), (0 : ℝ)), ((3 : ℝ), (0 : ℝ))] : List Pt).getD 1 P0) =
        ((3 : ℝ), (0 : ℝ)) from rfl,
      show (([((0 : ℝ), (0 : ℝ)), ((3 : ℝ), (0 : ℝ))] : List Pt).getD 0 P0) =
        ((0 : ℝ), (0 : ℝ)) from rfl]
    rw [show magnitude (subv ((3 : ℝ), (0 : ℝ)) ((0 : ℝ), (0 : ℝ))) = 3 from by
      unfold magnitude subv; exact sqrt_eval (by norm_num) (by norm_num)]
    rw [TOL]; norm_num
  exact ⟨hex, claim_C10 _ ((10 : ℝ), (4 : ℝ)) 100 hex⟩

theorem arctan_pos_of_pos {x : ℝ} (h : 0 < x) : 0 < Real.arctan x := by
  have := Real.arctan_strictMono h
  rwa [Real.arctan_zero] at this

theorem arctan_nonpos_of_nonpos {x : ℝ} (h : x ≤ 0) : Real.arctan x ≤ 0 := by
  have := Real.arctan_strictMono.monotone h
  rwa [Real.arctan_zero] at this

theorem atan2_le_pi (y x : ℝ) : atan2 y x ≤ Real.pi := by
  unfold atan2
  have hpi := Real.pi_pos
  split_ifs with h1 h2 h3 h4 h5
  · linarith [Real.arctan_lt_pi_div_two (y / x)]
  · have hyx : y / x ≤ 0 := div_nonpos_of_nonneg_of_nonpos h3 (le_of_lt h2)
    linarith [arctan_nonpos_of_nonpos hyx]
  · linarith [Real.arctan_lt_pi_div_two (y / x)]
  · linarith
  · linarith
  · linarith

theorem neg_pi_lt_atan2 (y x : ℝ) : -Real.pi < atan2 y x := by
  unfold atan2
  have hpi := Real.pi_pos
  split_ifs with h1 h2 h3 h4 h5
  · linarith [Real.neg_pi_div_two_lt_arctan (y / x)]
  · linarith [Real.neg_pi_div_two_lt_arctan (y / x)]
  · have hyx : 0 < y / x := div_pos_of_neg_of_neg (lt_of_not_le h3) h2
    linarith [arctan_pos_of_pos hyx]
  · linarith
  · linarith
  · linarith

/-- The normalised angle is always in [0, 180). -/
theorem angVal_mem (t_rail t_pwr : Pt) :
    0 ≤ angVal t_rail t_pwr ∧ angVal t_rail t_pwr < 180 := by
  unfold angVal
  have hpi := Real.pi_pos
  have hA1 := atan2_le_pi (t_rail.1 * t_pwr.2 - t_rail.2 * t_pwr.1)
    (t_rail.1 * t_pwr.1 + t_rail.2 * t_pwr.2)
  have hA2 := neg_pi_lt_atan2 (t_rail.1 * t_pwr.2 - t_rail.2 * t_pwr.1)
    (t_rail.1 * t_pwr.1 + t_rail.2 * t_pwr.2)
  set A := atan2 (t_rail.1 * t_pwr.2 - t_rail.2 * t_pwr.1)
    (t_rail.1 * t_pwr.1 + t_rail.2 * t_pwr.2) with hA
  have hfac : 0 < 180 / Real.pi := by positivity
  have hkey : Real.pi * (180 / Real.pi) = 180 := by field_simp
  have htheta_lt : -A * (180 / Real.pi) < 180 := by
    have : -A < Real.pi := by linarith
    calc -A * (180 / Real.pi) < Real.pi * (180 / Real.pi) :=
          mul_lt_mul_of_pos_right this hfac
      _ = 180 := hkey
  have htheta_ge : -180 ≤ -A * (180 / Real.pi) := by
    have : -Real.pi ≤ -A := by linarith
    calc (-180 : ℝ) = -Real.pi * (180 / Real.pi) := by rw [neg_mul, hkey]
      _ ≤ -A * (180 / Real.pi) := mul_le_mul_of_nonneg_right this (le_of_lt hfac)
  split_ifs with hpos
  · rw [abs_of_nonneg hpos]
    exact ⟨hpos, htheta_lt⟩
  · push_neg at hpos
    rw [abs_of_neg hpos]
    constructor <;> linarith

theorem pyRound_nonneg {x : ℝ} (h : 0 ≤ x) : 0 ≤ pyRound x := by
  have h0 : (0 : ℤ) ≤ ⌊x⌋ := Int.floor_nonneg.mpr h
  unfold pyRound
  split_ifs <;> omega

theorem pyRound_le_floor_add_one (x : ℝ) : pyRound x ≤ ⌊x⌋ + 1 := by
  unfold pyRound
  split_ifs <;> omega

/-- C3 (amended): the normalised angle before conversion is always in
[0, 180); the reported degree-minute pair always represents a value in the
closed interval [0, 180] with minutes in [0, 60), but minute rounding can
carry up to exactly 180 degrees 0 minutes, so the half-open bound of the
claim fails for the reported value (see the counterexample). -/
theorem claim_C3 (t_rail t_pwr : Pt) :
    (0 ≤ angVal t_rail t_pwr ∧ angVal t_rail t_pwr < 180) ∧
    0 ≤ (angle_right t_rail t_pwr).1 ∧
    0 ≤ (angle_right t_rail t_pwr).2 ∧ (angle_right t_rail t_pwr).2 < 60 ∧
    ((angle_right t_rail t_pwr).1 : ℝ) + ((angle_right t_rail t_pwr).2 : ℝ) / 60 ≤ 180 := by
  obtain ⟨hang0, hang180⟩ := angVal_mem t_rail t_pwr
  refine ⟨⟨hang0, hang180⟩, ?_⟩
  set ang := angVal t_rail t_pwr with hangdef
  have htr : pyTrunc ang = ⌊ang⌋ := if_pos hang0
  have hfl0 : (0 : ℤ) ≤ ⌊ang⌋ := Int.floor_nonneg.mpr hang0
  have hfl179 : ⌊ang⌋ ≤ 179 := by
    have : ⌊ang⌋ < 180 := Int.floor_lt.mpr (by exact_mod_cast hang180)
    omega
  have hv0 : 0 ≤ (ang - (pyTrunc ang : ℝ)) * 60 := by
    rw [htr]
    have := Int.floor_le ang
    nlinarith
  have hvlt : (ang - (pyTrunc ang : ℝ)) * 60 < 60 := by
    rw [htr]
    have := Int.lt_floor_add_one ang
    nlinarith
  have hm0 : 0 ≤ pyRound ((ang - (pyTrunc ang : ℝ)) * 60) := pyRound_nonneg hv0
  have hm60 : pyRound ((ang - (pyTrunc ang : ℝ)) * 60) ≤ 60 := by
    have h1 := pyRound_le_floor_add_one ((ang - (pyTrunc ang : ℝ)) * 60)
    have h2 : ⌊(ang - (pyTrunc ang : ℝ)) * 60⌋ < 60 := Int.floor_lt.mpr (by exact_mod_cast hvlt)
    omega
  show 0 ≤ (toDegMin ang).1 ∧ 0 ≤ (toDegMin ang).2 ∧ (toDegMin ang).2 < 60 ∧
    ((toDegMin ang).1 : ℝ) + ((toDegMin ang).2 : ℝ) / 60 ≤ 180
  unfold toDegMin
  split_ifs with hcarry
  · refine ⟨by rw [htr]; push_cast; omega, by norm_num, by norm_num, ?_⟩
    simp only [htr]
    push_cast
    have : (⌊ang⌋ : ℝ) ≤ 179 := by exact_mod_cast hfl179
    linarith
  · have hm59 : pyRound ((ang - (pyTrunc ang : ℝ)) * 60) ≤ 59 := by omega
    refine ⟨by rw [htr]; omega, hm0, by omega, ?_⟩
    have h179 : ((pyTrunc ang : ℤ) : ℝ) ≤ 179 := by rw [htr]; exact_mod_cast hfl179
    have h59 : ((pyRound ((ang - (pyTrunc ang : ℝ)) * 60) : ℤ) : ℝ) ≤ 59 := by
      exact_mod_cast hm59
    linarith

/-- C3: as literally stated the claim is false: with t_rail = (1,0) and
t_pwr = (1, 1/10000) the normalised angle is just below 180 degrees, the
minutes round up to 60 and the carry makes the reported pair 180 degrees 0
minutes, which is not in the half-open interval [0, 180). -/
theorem claim_C3_counterexample :
    angle_right ((1 : ℝ), (0 : ℝ)) ((1 : ℝ), (1 / 10000 : ℝ)) = (180, 0) ∧
    ¬ (((180 : ℤ) : ℝ) + ((0 : ℤ) : ℝ) / 60 < 180) := by
  have hpi3 := Real.pi_gt_three
  have hpi := Real.pi_pos
  have he_pos : 0 < Real.arctan ((1 : ℝ) / 10000) := arctan_pos_of_pos (by norm_num)
  have he_lt : Real.arctan ((1 : ℝ) / 10000) < 1 / 10000 := by
    have h1 : (0 : ℝ) < 1 / 10000 := by norm_num
    have h2 : (1 : ℝ) / 10000 < Real.pi / 2 := by linarith
    have h3 : (1 : ℝ) / 10000 < Real.tan (1 / 10000) := Real.lt_tan h1 h2
    have h4 := Real.arctan_strictMono h3
    rwa [Real.arctan_tan (by linarith) h2] at h4
  have hf_pos : (0 : ℝ) < 180 / Real.pi := by positivity
  have hf_lt : 180 / Real.pi < 60 := by
    rw [div_lt_iff₀ hpi]
    linarith
  have hε_pos : 0 < Real.arctan ((1 : ℝ) / 10000) * (180 / Real.pi) :=
    mul_pos he_pos hf_pos
  have hε_lt : Real.arctan ((1 : ℝ) / 10000) * (180 / Real.pi) < 6 / 1000 := by
    nlinarith
  have hA : atan2 ((1 : ℝ) * (1 / 10000) - 0 * 1) ((1 : ℝ) * 1 + 0 * (1 / 10000)) =
      Real.arctan ((1 : ℝ) / 10000) := by
    rw [show (1 : ℝ) * (1 / 10000) - 0 * 1 = 1 / 10000 by norm_num,
      show (1 : ℝ) * 1 + 0 * (1 / 10000) = 1 by norm_num]
    unfold atan2
    rw [if_pos one_pos, div_one]
  have hang : angVal ((1 : ℝ), (0 : ℝ)) ((1 : ℝ), (1 / 10000 : ℝ)) =
      180 - Real.arctan ((1 : ℝ) / 10000) * (180 / Real.pi) := by
    unfold angVal
    dsimp only
    rw [hA]
    rw [if_neg (by rw [neg_mul]; linarith)]
    rw [neg_mul, abs_neg, abs_of_pos hε_pos]
  refine ⟨?_, by push_cast; norm_num⟩
  unfold angle_right
  rw [hang]
  set ε := Real.arctan ((1 : ℝ) / 10000) * (180 / Real.pi) with hεdef
  have htr : pyTrunc (180 - ε) = 179 := by
    unfold pyTrunc
    rw [if_pos (by linarith)]
    apply Int.floor_eq_iff.mpr
    constructor
    · push_cast
      linarith
    · push_cast
      linarith
  have hv : ((180 - ε) - ((pyTrunc (180 - ε) : ℤ) : ℝ)) * 60 = 60 - 60 * ε := by
    rw [htr]
    push_cast
    ring
  have hfl59 : ⌊(60 : ℝ) - 60 * ε⌋ = 59 := by
    apply Int.floor_eq_iff.mpr
    constructor
    · push_cast
      linarith
    · push_cast
      linarith
  have hround : pyRound ((60 : ℝ) - 60 * ε) = 60 := by
    unfold pyRound
    rw [hfl59]
    rw [if_neg (by push_cast; linarith), if_pos (by push_cast; linarith)]
    omega
  unfold toDegMin
  rw [hv, hround, if_pos rfl, htr]
  norm_num

/-- C4: converting exactly 89.999 degrees gives 90 degrees 0 minutes (the
59.94 minutes round to 60 and carry into the degree), not 89 degrees 60
minutes. -/
theorem claim_C4 :
    toDegMin ((89999 : ℝ) / 1000) = (90, 0) ∧
    ((90 : ℤ), (0 : ℤ)) ≠ ((89 : ℤ), (60 : ℤ)) := by
  have htr : pyTrunc ((89999 : ℝ) / 1000) = 89 := by
    unfold pyTrunc
    rw [if_pos (by norm_num)]
    apply Int.floor_eq_iff.mpr
    constructor <;> norm_num
  have hv : ((89999 : ℝ) / 1000 - ((pyTrunc ((89999 : ℝ) / 1000) : ℤ) : ℝ)) * 60 =
      5994 / 100 := by
    rw [htr]
    push_cast
    ring_nf
  have hfl : ⌊(5994 : ℝ) / 100⌋ = 59 := by
    apply Int.floor_eq_iff.mpr
    constructor <;> norm_num
  have hround : pyRound ((5994 : ℝ) / 100) = 60 := by
    unfold pyRound
    rw [hfl]
    rw [if_neg (by push_cast; norm_num), if_pos (by push_cast; norm_num)]
    omega
  refine ⟨?_, by decide⟩
  unfold toDegMin
  rw [hv, hround, if_pos rfl, htr]
  decide

/-- The bracket loop stops at the first bracketing index; when that bracket
is degenerate (table gap below tolerance) and the segment itself is short,
it returns the start vertex with the default direction (1, 0). -/
theorem locateLoop_deg (fb : Pt) (target : ℝ) :
    ∀ (ps : List Pt) (c : ℝ) (i : ℕ),
      i + 1 < ps.length →
      (c :: segCums c ps).getD i 0 ≤ target →
      target ≤ (c :: segCums c ps).getD (i + 1) 0 →
      (∀ k, k < i → ¬ ((c :: segCums c ps).getD k 0 ≤ target ∧
        target ≤ (c :: segCums c ps).getD (k + 1) 0)) →
      (c :: segCums c ps).getD (i + 1) 0 - (c :: segCums c ps).getD i 0 < TOL →
      magnitude (subv (ps.getD (i + 1) P0) (ps.getD i P0)) ≤ TOL →
      locateLoop fb target
        ((ps.zip ps.tail).zip ((c :: segCums c ps).zip (segCums c ps))) =
        (ps.getD i P0, (1, 0)) := by
  intro ps
  induction ps with
  | nil => intro c i hi; simp at hi
  | cons a t ih =>
    cases t with
    | nil => intro c i hi; simp at hi
    | cons b rest =>
      intro c i hi hlo hhi hfirst hdeg hmag
      have hzip : (((a :: b :: rest).zip (a :: b :: rest).tail).zip
          ((c :: segCums c (a :: b :: rest)).zip (segCums c (a :: b :: rest)))) =
          ((a, b), (c, c + Pdist a b)) ::
            (((b :: rest).zip (b :: rest).tail).zip
              (((c + Pdist a b) :: segCums (c + Pdist a b) (b :: rest)).zip
                (segCums (c + Pdist a b) (b :: rest)))) := by
        show ((a, b) :: ((b :: rest).zip rest)).zip _ = _
        rfl
      rw [hzip]
      cases i with
      | zero =>
        show locateLoop fb target (((a, b), (c, c + Pdist a b)) :: _) = (a, (1, 0))
        unfold locateLoop
        rw [if_pos ⟨hlo, by simpa [segCums] using hhi⟩]
        rw [if_pos (by simpa [segCums] using hdeg)]
        unfold tangentOf
        rw [if_neg (not_lt.mpr (by simpa using hmag))]
      | succ j =>
        show locateLoop fb target (((a, b), (c, c + Pdist a b)) :: _) = _
        unfold locateLoop
        rw [if_neg (by
          have := hfirst 0 (Nat.succ_pos j)
          simpa [segCums] using this)]
        have := ih (c + Pdist a b) j
          (by simp only [List.length_cons] at hi ⊢; omega)
          (by simpa [segCums] using hlo)
          (by simpa [segCums] using hhi)
          (by
            intro k hk
            have := hfirst (k + 1) (by omega)
            simpa [segCums] using this)
          (by simpa [segCums] using hdeg)
          (by simpa using hmag)
        simpa [segCums] using this

/-- C5 (amended): when the first bracketing segment for a target strictly
inside (0, total) has table gap below tolerance, `get_point_and_tangent`
returns the bracket start vertex together with the default direction
(1, 0): the raw vertex difference is below the normalisation threshold, so
the final guard replaces it by Vec2(1, 0); the raw un-normalised
difference itself is never returned (see the counterexample). -/
theorem claim_C5 (vecs : List Pt) (i : ℕ) (target : ℝ)
    (h2 : 2 ≤ vecs.length) (hi : i + 1 < vecs.length)
    (ht0 : 0 < target) (htlast : target < (calc_cum_len vecs).getLastD 0)
    (hlo : (calc_cum_len vecs).getD i 0 ≤ target)
    (hhi : target ≤ (calc_cum_len vecs).getD (i + 1) 0)
    (hfirst : ∀ k, k < i → ¬ ((calc_cum_len vecs).getD k 0 ≤ target ∧
      target ≤ (calc_cum_len vecs).getD (k + 1) 0))
    (hdeg : (calc_cum_len vecs).getD (i + 1) 0 - (calc_cum_len vecs).getD i 0 < TOL) :
    get_point_and_tangent vecs (calc_cum_len vecs) target = (vecs.getD i P0, (1, 0)) := by
  have hmag : magnitude (subv (vecs.getD (i + 1) P0) (vecs.getD i P0)) ≤ TOL := by
    have hrec := segCums_getD 0 vecs i hi
    rw [show calc_cum_len vecs = 0 :: segCums 0 vecs from rfl] at hdeg
    rw [hrec] at hdeg
    rw [Pdist_eq_magnitude] at hdeg
    linarith
  unfold get_point_and_tangent
  rw [if_neg (not_le.mpr ht0), if_neg (not_le.mpr htlast)]
  exact locateLoop_deg (vecs.getLastD P0) target vecs 0 i hi hlo hhi hfirst hdeg hmag

/-- C5: as literally stated the claim is false: on the polyline
[(0,0),(1e-7,0),(4,0)] with its own table and target 5e-8 (strictly inside
(0, total)), the bracket segment has length 1e-7 < tolerance, and the
returned tangent is the default (1, 0), not the raw un-normalised vertex
difference (1e-7, 0). -/
theorem claim_C5_counterexample :
    get_point_and_tangent
      [((0 : ℝ), (0 : ℝ)), ((1 / 10000000 : ℝ), (0 : ℝ)), ((4 : ℝ), (0 : ℝ))]
      (calc_cum_len
        [((0 : ℝ), (0 : ℝ)), ((1 / 10000000 : ℝ), (0 : ℝ)), ((4 : ℝ), (0 : ℝ))])
      (1 / 20000000) = (((0 : ℝ), (0 : ℝ)), ((1 : ℝ), (0 : ℝ))) ∧
    (((1 : ℝ), (0 : ℝ)) : Pt) ≠ subv ((1 / 10000000 : ℝ), (0 : ℝ)) ((0 : ℝ), (0 : ℝ)) := by
  have hd1 : Pdist ((0 : ℝ), (0 : ℝ)) ((1 / 10000000 : ℝ), (0 : ℝ)) = 1 / 10000000 := by
    unfold Pdist
    exact sqrt_eval (by norm_num) (by norm_num)
  have hd2 : Pdist ((1 / 10000000 : ℝ), (0 : ℝ)) ((4 : ℝ), (0 : ℝ)) =
      39999999 / 10000000 := by
    unfold Pdist
    exact sqrt_eval (by norm_num) (by norm_num)
  have hcum : calc_cum_len
      [((0 : ℝ), (0 : ℝ)), ((1 / 10000000 : ℝ), (0 : ℝ)), ((4 : ℝ), (0 : ℝ))] =
      [0, 1 / 10000000, 4] := by
    show 0 :: segCums 0 _ = _
    simp only [segCums, hd1, hd2]
    norm_num
  constructor
  · rw [hcum]
    unfold get_point_and_tangent
    rw [if_neg (by norm_num), if_neg (by simp; norm_num)]
    show locateLoop ((4 : ℝ), (0 : ℝ)) (1 / 20000000)
      [((((0 : ℝ), (0 : ℝ)), ((1 / 10000000 : ℝ), (0 : ℝ))), ((0 : ℝ), 1 / 10000000)),
        ((((1 / 10000000 : ℝ), (0 : ℝ)), ((4 : ℝ), (0 : ℝ))), (1 / 10000000, 4))] = _
    unfold locateLoop
    rw [if_pos (by constructor <;> norm_num)]
    rw [if_pos (by rw [TOL]; norm_num)]
    unfold tangentOf
    rw [if_neg (by
      rw [show magnitude (subv ((1 / 10000000 : ℝ), (0 : ℝ)) ((0 : ℝ), (0 : ℝ))) =
          1 / 10000000 from by
        unfold magnitude subv
        exact sqrt_eval (by norm_num) (by norm_num)]
      rw [TOL]
      norm_num)]
  · intro h
    rw [Prod.ext_iff] at h
    simp only [subv] at h
    norm_num at h

/-- Witness for C5 at the polyline [(0,0),(1e-7,0),(4,0)], bracket index 0,
target 5e-8. -/
theorem claim_C5_witness :
    (0 : ℝ) < 1 / 20000000 ∧
    get_point_and_tangent
      [((0 : ℝ), (0 : ℝ)), ((1 / 10000000 : ℝ), (0 : ℝ)), ((4 : ℝ), (0 : ℝ))]
      (calc_cum_len
        [((0 : ℝ), (0 : ℝ)), ((1 / 10000000 : ℝ), (0 : ℝ)), ((4 : ℝ), (0 : ℝ))])
      (1 / 20000000) =
      (([((0 : ℝ), (0 : ℝ)), ((1 / 10000000 : ℝ), (0 : ℝ)), ((4 : ℝ), (0 : ℝ))] :
        List Pt).getD 0 P0, ((1 : ℝ), (0 : ℝ))) := by
  have hd1 : Pdist ((0 : ℝ), (0 : ℝ)) ((1 / 10000000 : ℝ), (0 : ℝ)) = 1 / 10000000 := by
    unfold Pdist
    exact sqrt_eval (by norm_num) (by norm_num)
  have hd2 : Pdist ((1 / 10000000 : ℝ), (0 : ℝ)) ((4 : ℝ), (0 : ℝ)) =
      39999999 / 10000000 := by
    unfold Pdist
    exact sqrt_eval (by norm_num) (by norm_num)
  have hcum : calc_cum_len
      [((0 : ℝ), (0 : ℝ)), ((1 / 10000000 : ℝ), (0 : ℝ)), ((4 : ℝ), (0 : ℝ))] =
      [0, 1 / 10000000, 4] := by
    show 0 :: segCums 0 _ = _
    simp only [segCums, hd1, hd2]
    norm_num
  refine ⟨by norm_num, claim_C5 _ 0 (1 / 20000000) (by norm_num) (by norm_num)
    (by norm_num) ?_ ?_ ?_ (by intro k hk; omega) ?_⟩
  · rw [hcum]
    simp only [List.getLastD]
    norm_num
  · rw [hcum]
    simp only [List.getD_cons_zero]
    norm_num
  · rw [hcum]
    simp only [List.getD_cons_succ, List.getD_cons_zero]
    norm_num
  · rw [hcum]
    simp only [List.getD_cons_succ, List.getD_cons_zero]
    rw [TOL]
    norm_num

/-- C7: routing by mileage keeps a curve exactly when target - offset lies
in [0, total] widened by the tolerance on both sides, selects the first
such curve in iteration order, reports none (the no-coverage warning) when
no curve matches, and the batch maps every mileage to its own independent
result, so one no-coverage item never disturbs the others. -/
theorem claim_C7 (curves : List Curve) (M : ℝ) :
    (∀ c : Curve, ¬ (M - c.2.2 < -TOL ∨ c.2.1.getLastD 0 + TOL < M - c.2.2) ↔
      (0 - TOL ≤ M - c.2.2 ∧ M - c.2.2 ≤ c.2.1.getLastD 0 + TOL)) ∧
    (∀ l1 c l2, curves = l1 ++ c :: l2 →
      (∀ c' ∈ l1, M - c'.2.2 < -TOL ∨ c'.2.1.getLastD 0 + TOL < M - c'.2.2) →
      ¬ (M - c.2.2 < -TOL ∨ c.2.1.getLastD 0 + TOL < M - c.2.2) →
      route_by_mileage M curves = some (get_point_and_tangent c.1 c.2.1 (M - c.2.2)).1) ∧
    ((∀ c ∈ curves, M - c.2.2 < -TOL ∨ c.2.1.getLastD 0 + TOL < M - c.2.2) →
      route_by_mileage M curves = none) ∧
    ∀ ms : List ℝ, (processMileages curves ms).length = ms.length ∧
      ∀ k, k < ms.length →
        (processMileages curves ms).getD k none = route_by_mileage (ms.getD k 0) curves := by
  refine ⟨?_, ?_, ?_, ?_⟩
  · intro c
    rw [not_or, not_lt, not_lt]
    constructor
    · intro ⟨ha, hb⟩
      exact ⟨by linarith, hb⟩
    · intro ⟨ha, hb⟩
      exact ⟨by linarith, hb⟩
  · intro l1
    induction l1 generalizing curves with
    | nil =>
      intro c l2 hc _ hmatch
      subst hc
      rw [List.nil_append]
      unfold route_by_mileage
      rw [if_neg hmatch]
    | cons c' l1' ih =>
      intro c l2 hc hskip hmatch
      subst hc
      rw [List.cons_append]
      unfold route_by_mileage
      rw [if_pos (hskip c' (List.mem_cons_self _ _))]
      exact ih _ c l2 rfl (fun x hx => hskip x (List.mem_cons_of_mem _ hx)) hmatch
  · induction curves with
    | nil => intro _; rfl
    | cons c rest ih =>
      intro hall
      unfold route_by_mileage
      rw [if_pos (hall c (List.mem_cons_self _ _))]
      exact ih (fun x hx => hall x (List.mem_cons_of_mem _ hx))
  · intro ms
    refine ⟨by simp [processMileages], ?_⟩
    intro k hk
    have hk2 : k < (processMileages curves ms).length := by
      simpa [processMileages] using hk
    rw [List.getD_eq_getElem _ _ hk2, List.getD_eq_getElem _ _ hk]
    simp [processMileages]

/-- Witness for C7: two curves of total length 3 with offsets 100 and 199;
the mileage 200 misses the first curve and is placed on the second. -/
theorem claim_C7_witness :
    route_by_mileage 200
      [([((0 : ℝ), (0 : ℝ)), ((3 : ℝ), (0 : ℝ))], ([(0 : ℝ), 3], (100 : ℝ))),
        ([((0 : ℝ), (0 : ℝ)), ((3 : ℝ), (0 : ℝ))], ([(0 : ℝ), 3], (199 : ℝ)))] =
      some (get_point_and_tangent [((0 : ℝ), (0 : ℝ)), ((3 : ℝ), (0 : ℝ))]
        [(0 : ℝ), 3] (200 - 199)).1 := by
  have h := (claim_C7
    [([((0 : ℝ), (0 : ℝ)), ((3 : ℝ), (0 : ℝ))], ([(0 : ℝ), 3], (100 : ℝ))),
      ([((0 : ℝ), (0 : ℝ)), ((3 : ℝ), (0 : ℝ))], ([(0 : ℝ), 3], (199 : ℝ)))] 200).2.1
    [([((0 : ℝ), (0 : ℝ)), ((3 : ℝ), (0 : ℝ))], ([(0 : ℝ), 3], (100 : ℝ)))]
    ([((0 : ℝ), (0 : ℝ)), ((3 : ℝ), (0 : ℝ))], ([(0 : ℝ), 3], (199 : ℝ))) [] rfl
    (by
      intro c' hc'
      simp only [List.mem_singleton] at hc'
      subst hc'
      right
      show ([(0 : ℝ), 3].getLastD 0) + TOL < 200 - 100
      rw [TOL]
      norm_num)
    (by
      rw [not_or, not_lt, not_lt]
      constructor
      · show -TOL ≤ 200 - 199
        rw [TOL]
        norm_num
      · show 200 - 199 ≤ ([(0 : ℝ), 3].getLastD 0) + TOL
        rw [TOL]
        norm_num)
  exact h

/-- C8 (amended): for a degenerate (sub-tolerance shoelace double-area)
polygon with at least 2 input vertices, the result is area exactly 0 and
the centroid is the arithmetic mean of the closed vertex list without its
final closing vertex: vertices are counted with multiplicity (the first
vertex once), not deduplicated as the claim's distinct-vertices reading
states (see the counterexample). -/
theorem claim_C8 (p : PtQ) (ps : List PtQ) (hlen : 1 ≤ ps.length)
    (hdeg : |(shoelace (closePoly p ps)).1| < TOLQ) :
    polygon_area_centroid (p :: ps) = some (0, meanQ (closePoly p ps).dropLast) := by
  have hlenC : 2 ≤ (closePoly p ps).length := by
    unfold closePoly
    split_ifs
    · simp only [List.length_append, List.length_cons, List.length_singleton]
      omega
    · simp only [List.length_cons]
      omega
  rw [polygon_area_centroid]
  rw [if_pos hdeg, if_neg (by omega)]
  unfold meanQ
  rw [List.length_dropLast]

/-- C8: as literally stated the claim is false: the zero-area polygon
[(0,0),(2,0),(0,0),(4,0),(0,0)] revisits (0,0), so the mean over
pts[:-1] counts it twice, giving centroid (3/2, 0), while the mean of its
distinct vertices — exactly (0,0), (2,0) and (4,0) — is (2, 0). -/
theorem claim_C8_counterexample :
    polygon_area_centroid [((0 : ℚ), (0 : ℚ)), ((2 : ℚ), (0 : ℚ)), ((0 : ℚ), (0 : ℚ)),
        ((4 : ℚ), (0 : ℚ)), ((0 : ℚ), (0 : ℚ))] =
      some (0, (3 / 2, 0)) ∧
    ((3 / 2 : ℚ), (0 : ℚ)) ≠
      meanQ [((0 : ℚ), (0 : ℚ)), ((2 : ℚ), (0 : ℚ)), ((4 : ℚ), (0 : ℚ))] := by
  have hclose : closePoly ((0 : ℚ), (0 : ℚ))
      [((2 : ℚ), (0 : ℚ)), ((0 : ℚ), (0 : ℚ)), ((4 : ℚ), (0 : ℚ)), ((0 : ℚ), (0 : ℚ))] =
      [((0 : ℚ), (0 : ℚ)), ((2 : ℚ), (0 : ℚ)), ((0 : ℚ), (0 : ℚ)), ((4 : ℚ), (0 : ℚ)),
        ((0 : ℚ), (0 : ℚ))] := by
    rw [closePoly, if_neg (by simp)]
  have hsh : shoelace [((0 : ℚ), (0 : ℚ)), ((2 : ℚ), (0 : ℚ)), ((0 : ℚ), (0 : ℚ)),
      ((4 : ℚ), (0 : ℚ)), ((0 : ℚ), (0 : ℚ))] = (0, 0, 0) := by
    simp [shoelace, shoelaceStep]
  constructor
  · rw [polygon_area_centroid, hclose, hsh]
    rw [if_pos (by rw [TOLQ]; norm_num), if_neg (by simp)]
    simp only [List.dropLast, List.map_cons, List.map_nil, List.sum_cons, List.sum_nil,
      List.length_cons, List.length_nil]
    norm_num
  · intro h
    rw [Prod.ext_iff] at h
    unfold meanQ at h
    simp only [List.map_cons, List.map_nil, List.sum_cons, List.sum_nil,
      List.length_cons, List.length_nil] at h
    norm_num at h

/-- Witness for C8 at the degenerate polygon [(0,0),(1,0),(2,0)]. -/
theorem claim_C8_witness :
    1 ≤ ([((1 : ℚ), (0 : ℚ)), ((2 : ℚ), (0 : ℚ))] : List PtQ).length ∧
    |(shoelace (closePoly ((0 : ℚ), (0 : ℚ))
      [((1 : ℚ), (0 : ℚ)), ((2 : ℚ), (0 : ℚ))])).1| < TOLQ ∧
    polygon_area_centroid [((0 : ℚ), (0 : ℚ)), ((1 : ℚ), (0 : ℚ)), ((2 : ℚ), (0 : ℚ))] =
      some (0, meanQ (closePoly ((0 : ℚ), (0 : ℚ))
        [((1 : ℚ), (0 : ℚ)), ((2 : ℚ), (0 : ℚ))]).dropLast) := by
  have hdeg : |(shoelace (closePoly ((0 : ℚ), (0 : ℚ))
      [((1 : ℚ), (0 : ℚ)), ((2 : ℚ), (0 : ℚ))])).1| < TOLQ := by
    rw [show closePoly ((0 : ℚ), (0 : ℚ)) [((1 : ℚ), (0 : ℚ)), ((2 : ℚ), (0 : ℚ))] =
        [((0 : ℚ), (0 : ℚ)), ((1 : ℚ), (0 : ℚ)), ((2 : ℚ), (0 : ℚ)), ((0 : ℚ), (0 : ℚ))]
      from by rw [closePoly, if_pos (by simp)]; rfl]
    rw [show shoelace [((0 : ℚ), (0 : ℚ)), ((1 : ℚ), (0 : ℚ)), ((2 : ℚ), (0 : ℚ)),
        ((0 : ℚ), (0 : ℚ))] = (0, 0, 0) from by simp [shoelace, shoelaceStep]]
    rw [TOLQ]
    norm_num
  exact ⟨by norm_num, hdeg,
    claim_C8 ((0 : ℚ), (0 : ℚ)) [((1 : ℚ), (0 : ℚ)), ((2 : ℚ), (0 : ℚ))]
      (by norm_num) hdeg⟩

/-- C9: for every polyline with at least 2 vertices, the arc-length table
starts at 0, has one entry per vertex, is non-decreasing, and each entry is
the previous entry plus the length of the corresponding segment. -/
theorem claim_C9 (vecs : List Pt) (h : 2 ≤ vecs.length) :
    (calc_cum_len vecs).getD 0 0 = 0 ∧
    (calc_cum_len vecs).length = vecs.length ∧
    List.Chain' (· ≤ ·) (calc_cum_len vecs) ∧
    ∀ i, i + 1 < vecs.length →
      (calc_cum_len vecs).getD (i + 1) 0 =
        (calc_cum_len vecs).getD i 0 + Pdist (vecs.getD i P0) (vecs.getD (i + 1) P0) := by
  refine ⟨rfl, calc_cum_len_length vecs (by omega), segCums_chain 0 vecs, ?_⟩
  exact segCums_getD 0 vecs

/-- Witness for C9 at the polyline [(0,0),(3,0)]. -/
theorem claim_C9_witness :
    2 ≤ ([((0 : ℝ), (0 : ℝ)), ((3 : ℝ), (0 : ℝ))] : List Pt).length ∧
    ((calc_cum_len [((0 : ℝ), (0 : ℝ)), ((3 : ℝ), (0 : ℝ))]).getD 0 0 = 0 ∧
    (calc_cum_len [((0 : ℝ), (0 : ℝ)), ((3 : ℝ), (0 : ℝ))]).length =
      ([((0 : ℝ), (0 : ℝ)), ((3 : ℝ), (0 : ℝ))] : List Pt).length ∧
    List.Chain' (· ≤ ·) (calc_cum_len [((0 : ℝ), (0 : ℝ)), ((3 : ℝ), (0 : ℝ))]) ∧
    ∀ i, i + 1 < ([((0 : ℝ), (0 : ℝ)), ((3 : ℝ), (0 : ℝ))] : List Pt).length →
      (calc_cum_len [((0 : ℝ), (0 : ℝ)), ((3 : ℝ), (0 : ℝ))]).getD (i + 1) 0 =
        (calc_cum_len [((0 : ℝ), (0 : ℝ)), ((3 : ℝ), (0 : ℝ))]).getD i 0 +
          Pdist (([((0 : ℝ), (0 : ℝ)), ((3 : ℝ), (0 : ℝ))] : List Pt).getD i P0)
            (([((0 : ℝ), (0 : ℝ)), ((3 : ℝ), (0 : ℝ))] : List Pt).getD (i + 1) P0)) :=
  ⟨by norm_num, claim_C9 _ (by norm_num)⟩

/-- C6: claimed that any input with fewer than 2 points fails with an
InvalidGeometry error; in fact a one-point input does not fail: densify
returns the one-point list unchanged. -/
theorem claim_C6_counterexample :
    MileageConnect.densify [((0 : ℝ), (0 : ℝ))] 5 = some [((0 : ℝ), (0 : ℝ))] ∧
    MileageConnect.densify [((0 : ℝ), (0 : ℝ))] 5 ≠ none := by
  refine ⟨rfl, ?_⟩
  simp [MileageConnect.densify]

/-- C6 (amended): only the empty input fails (Python IndexError reading
`points[-1]`, modelled as none); a one-point input is returned unchanged by
both densify variants, and no InvalidGeometry error exists in the code. -/
theorem claim_C6 : ∀ (L : ℝ),
    RailPower.densify [] L = none ∧ MileageConnect.densify [] L = none ∧
    ∀ p : Pt, RailPower.densify [p] L = some [p] ∧
      MileageConnect.densify [p] L = some [p] := by
  intro L
  exact ⟨rfl, rfl, fun p => ⟨rfl, rfl⟩⟩

end Dxf2
